import Mathlib

/-!
Verification development for the universal context optimization engine
(`optimization_engine.py` of the python-gateway).

Modelling conventions for the shallow embedding:
* Python strings are modelled as `List Char`; `len(s)` is `List.length`,
  slicing `s[:k]` is `List.take k`, the substring test `a in s` is `substr_in`.
* Python floats are idealized as exact real numbers `ℝ` (so `math.log`,
  `math.sqrt` and `0.5 ** x` become `Real.log`, `Real.sqrt`, `Real.rpow`);
  the comparison `total_tokens < max_tokens * 0.8` between integers is
  modelled exactly as the equivalent integer comparison
  `5 * total < 4 * max`.
* `datetime` timestamps are modelled as rational numbers measured in hours,
  so `(t1 - t2).total_seconds() / 3600` becomes `t1 - t2`.
* Python `int` is `ℤ` where negative values are possible (token budgets),
  `ℕ` for counts; `//` on nonnegative values is `Nat` division.
* Object identity (`id(msg)`) is modelled by tagging selected messages with
  the index of the original message they come from; derived (truncated)
  messages, whose identity is fresh, are tagged as fills instead.
-/

namespace Ctm

/-- A conversation message (dataclass `ConversationMessage`).  `tokens`,
`relevance_score` and `message_type` default to `None` in the source and are
modelled as `Option`s.  Dataclass equality compares all six fields. -/
structure Msg where
  role : String
  content : List Char
  timestamp : Option ℚ
  tokens : Option ℤ
  relevance_score : Option ℝ
  message_type : Option String

/-- Default message used only for `getD`-style total indexing in statements. -/
def mdefault : Msg :=
  { role := "", content := [], timestamp := none, tokens := none,
    relevance_score := none, message_type := none }

instance : Inhabited Msg := ⟨mdefault⟩

/-- Conversation context (dataclass `ConversationContext`); the optimization
engine reads only `messages`, the other dataclass fields are carried along. -/
structure Conversation where
  messages : List Msg
  total_tokens : ℤ
  source_tool : String

/-- Token estimate `len(msg.content) // 4` used throughout the engine. -/
def token_estimate (m : Msg) : ℕ := m.content.length / 4

/-- Sum of the token estimates of a list of messages. -/
def total_estimate (l : List Msg) : ℕ := (l.map token_estimate).sum

/-- Python substring test `needle in hay` on strings-as-char-lists. -/
def substr_in (needle : List Char) : List Char → Bool
  | [] => needle.isEmpty
  | c :: cs => needle.isPrefixOf (c :: cs) || substr_in needle cs

/-- Python `str.lower()` (ASCII idealization). -/
def lower (s : List Char) : List Char := s.map Char.toLower

/-- Python `str.startswith` against a tuple of alternatives. -/
def starts_with_any (s : List Char) (alts : List (List Char)) : Bool :=
  alts.any fun a => a.isPrefixOf s

/-- The fenced code-block marker. -/
def fence : List Char := "```".toList

/-- `StatisticalOptimizer._detect_message_type`: `code` on a fence marker or
`def `/`function ` keyword, else `question` for user messages with `?` or an
interrogative prefix, else `system` for system role, else `response`. -/
def detect_message_type (m : Msg) : String :=
  let content := lower m.content
  if substr_in fence m.content || substr_in "def ".toList content ||
      substr_in "function ".toList content then "code"
  else if m.role = "user" ∧
      (content.contains '?' ||
        starts_with_any content
          (["how", "what", "why", "when", "where", "can you"].map
            String.toList)) then "question"
  else if m.role = "system" then "system"
  else "response"

/-- `HybridOptimizer._contains_code`: fence marker or any of a broader,
case-sensitive keyword list. -/
def contains_code (content : List Char) : Bool :=
  substr_in fence content ||
    (["function", "def ", "class ", "import ", "const ", "let ", "var "].map
      String.toList).any fun k => substr_in k content

/-- Characters stripped by Python `str.strip()` (ASCII whitespace). -/
def is_py_ws (c : Char) : Bool :=
  c = ' ' || c = '\t' || c = '\n' || c = '\r' || c = '\x0b' || c = '\x0c'

/-- Python `str.strip()`. -/
def py_strip (l : List Char) : List Char :=
  List.rdropWhile is_py_ws (List.dropWhile is_py_ws l)

/-- Python `str.index(sub)`: index of the first occurrence of `sub`
(total function; in the engine it is only called when `sub` occurs). -/
def py_index_sub (sub : List Char) : List Char → ℕ
  | [] => 0
  | c :: cs => if sub.isPrefixOf (c :: cs) then 0 else py_index_sub sub cs + 1

/-- Python `str.split('\n')`. -/
def split_nl : List Char → List (List Char)
  | [] => [[]]
  | c :: cs =>
    if c = '\n' then [] :: split_nl cs
    else
      match split_nl cs with
      | [] => [[c]]
      | h :: t => (c :: h) :: t

/-- Python `'\n'.join(lines)`. -/
def join_nl : List (List Char) → List Char
  | [] => []
  | [l] => l
  | l :: ls => l ++ '\n' :: join_nl ls

/-- The elision marker `// ...` inserted for omitted code. -/
def elision : List Char := "// ...".toList

/-- The keep test applied to a stripped line inside a fenced code block in
`_condense_code_content`. -/
def keep_line (st : List Char) : Bool :=
  starts_with_any st
      (["def ", "function ", "class ", "import ", "from ", "export "].map
        String.toList) ||
    [':'].isSuffixOf st ||
    substr_in "return ".toList st ||
    "//".toList.isPrefixOf st ||
    "#".toList.isPrefixOf st ||
    st.isEmpty

/-- Main loop of `_condense_code_content` over the split lines, carrying the
in-code-block flag and the accumulated kept lines (in reverse). -/
def condense_aux : List (List Char) → Bool → List (List Char) → List (List Char)
  | [], _, accRev => accRev.reverse
  | line :: rest, inBlock, accRev =>
    let st := py_strip line
    if fence.isPrefixOf st then condense_aux rest (!inBlock) (line :: accRev)
    else if inBlock then
      if keep_line st then condense_aux rest inBlock (line :: accRev)
      else if accRev ≠ [] ∧ ¬ elision.isSuffixOf (py_strip (accRev.headD [])) then
        condense_aux rest inBlock
          ((line.take (py_index_sub st line) ++ elision) :: accRev)
      else condense_aux rest inBlock accRev
    else condense_aux rest inBlock (line :: accRev)

/-- `HybridOptimizer._condense_code_content`. -/
def condense_code_content (content : List Char) : List Char :=
  join_nl (condense_aux (split_nl content) false [])

/-- `UniversalOptimizationEngine._count_conversation_pairs`: adjacent
user-then-assistant positions. -/
def count_conversation_pairs : List Msg → ℕ
  | a :: b :: rest =>
    (if a.role = "user" ∧ b.role = "assistant" then 1 else 0) +
      count_conversation_pairs (b :: rest)
  | _ => 0

/-- Number of messages whose content contains a fenced code marker. -/
def code_count (l : List Msg) : ℕ :=
  (l.filter fun m => substr_in fence m.content).length

/-- `UniversalOptimizationEngine._calculate_quality_score`. -/
noncomputable def calculate_quality_score (orig opt : List Msg) : ℝ :=
  if orig.isEmpty then 1
  else
    let message_frac : ℝ := (opt.length : ℝ) / (orig.length : ℝ)
    let code_frac : ℝ :=
      if 0 < code_count orig then (code_count opt : ℝ) / (code_count orig : ℝ)
      else 1
    let flow_frac : ℝ :=
      if 0 < count_conversation_pairs orig then
        (count_conversation_pairs opt : ℝ) / (count_conversation_pairs orig : ℝ)
      else 1
    min 1 (message_frac * 0.3 + code_frac * 0.4 + flow_frac * 0.3)

/-- Splits a text into maximal runs of word characters (the regex `\b\w+\b`
of `_preprocess_text`, ASCII idealization), carrying the current run. -/
def words_aux : List Char → List Char → List (List Char)
  | [], acc => if acc.isEmpty then [] else [acc.reverse]
  | c :: cs, acc =>
    if c.isAlphanum || c = '_' then words_aux cs (c :: acc)
    else (if acc.isEmpty then [] else [acc.reverse]) ++ words_aux cs []

/-- The stop-word set of `StatisticalOptimizer.__init__`. -/
def stop_words : List (List Char) :=
  (["the", "a", "an", "and", "or", "but", "in", "on", "at", "to", "for", "of",
    "with", "by", "from", "up", "about", "into", "through", "during", "before",
    "after", "above", "below", "between", "among", "throughout", "despite",
    "towards", "upon", "concerning", "as", "is", "are", "was", "were", "be",
    "been", "being", "have", "has", "had", "do", "does", "did", "will",
    "would", "should", "could", "can", "may", "might", "must", "shall",
    "ought"].map String.toList)

/-- `StatisticalOptimizer._preprocess_text`: lowercase, word extraction,
stop-word and short-word removal. -/
def preprocess_text (c : List Char) : List (List Char) :=
  (words_aux (lower c) []).filter fun w => w ∉ stop_words ∧ 2 < w.length

/-- TF-IDF weight of term `t` in document `doc` over corpus `docs`
(`_calculate_tf_idf`): normalized term frequency times `ln(N / df)`. -/
noncomputable def tf_idf_value (docs : List (List (List Char)))
    (doc : List (List Char)) (t : List Char) : ℝ :=
  let tf : ℝ := if doc.length = 0 then 0 else (doc.count t : ℝ) / (doc.length : ℝ)
  let df := (docs.filter fun d => t ∈ d).length
  let idf : ℝ := if 0 < df then Real.log ((docs.length : ℝ) / (df : ℝ)) else 0
  tf * idf

/-- `StatisticalOptimizer._cosine_similarity` between the TF-IDF vectors of
two documents; both vectors are keyed by the whole corpus vocabulary, so the
shared-key set is the (deduplicated) vocabulary itself. -/
noncomputable def cosine_sim (docs : List (List (List Char)))
    (d1 d2 : List (List Char)) : ℝ :=
  let vocab := docs.flatten.dedup
  if vocab.isEmpty then 0
  else
    let dot := (vocab.map fun t => tf_idf_value docs d1 t * tf_idf_value docs d2 t).sum
    let mag1 := Real.sqrt ((vocab.map fun t => tf_idf_value docs d1 t ^ 2).sum)
    let mag2 := Real.sqrt ((vocab.map fun t => tf_idf_value docs d2 t ^ 2).sum)
    if mag1 = 0 ∨ mag2 = 0 then 0 else dot / (mag1 * mag2)

/-- `StatisticalOptimizer.calculate_relevance` in the no-query mode used by
`optimize`: each message scores the average cosine similarity to every other
message (0 when there are no peers). -/
noncomputable def calculate_relevance (msgs : List Msg) : List ℝ :=
  if msgs.isEmpty then []
  else
    let documents := msgs.map fun m => preprocess_text m.content
    (List.range msgs.length).map fun i =>
      let sims := ((List.range msgs.length).filter fun j => j ≠ i).map fun j =>
        cosine_sim documents (documents.getD i []) (documents.getD j [])
      if sims.isEmpty then 0 else sims.sum / (sims.length : ℝ)

/-- Timestamp of the most recent message carrying one: the source scans
`reversed(messages)` and stops at the first timestamped message. -/
def find_most_recent : List Msg → Option ℚ
  | [] => none
  | m :: rest => (find_most_recent rest).orElse fun _ => m.timestamp

/-- Position-based decay factor branch of `_apply_time_decay`:
`score * (0.5 + 0.5 * (i / total))`. -/
noncomputable def pos_decay_aux (n : ℕ) : List ℝ → ℕ → List ℝ
  | [], _ => []
  | s :: rest, i => s * (0.5 + 0.5 * ((i : ℝ) / (n : ℝ))) :: pos_decay_aux n rest (i + 1)

/-- Anchored branch of `_apply_time_decay` over `zip(messages, scores)`:
a 24-hour half-life exponential decay blended as `0.3 + 0.7 * factor` for
timestamped messages, position-based factors otherwise. -/
noncomputable def decay_aux (anchor : ℚ) (n : ℕ) : List (Msg × ℝ) → ℕ → List ℝ
  | [], _ => []
  | (m, s) :: rest, i =>
    (match m.timestamp with
      | some t => s * (0.3 + 0.7 * ((1 / 2 : ℝ) ^ (((anchor - t : ℚ) : ℝ) / 24)))
      | none => s * (0.5 + 0.5 * ((i : ℝ) / (n : ℝ)))) :: decay_aux anchor n rest (i + 1)

/-- `StatisticalOptimizer._apply_time_decay`. -/
noncomputable def apply_time_decay (msgs : List Msg) (scores : List ℝ) : List ℝ :=
  if msgs.isEmpty then scores
  else
    match find_most_recent msgs with
    | none => pos_decay_aux msgs.length scores 0
    | some anchor => decay_aux anchor msgs.length (msgs.zip scores) 0

/-- The fixed multiplier table of `_apply_type_priority`
(`dict.get` with default 1.0). -/
noncomputable def priority_multiplier (t : String) : ℝ :=
  if t = "code" then 1.5
  else if t = "question" then 1.3
  else if t = "system" then 0.7
  else if t = "response" then 1.0
  else 1.0

/-- `StatisticalOptimizer._apply_type_priority` over `zip(messages, scores)`. -/
noncomputable def apply_type_priority (msgs : List Msg) (scores : List ℝ) : List ℝ :=
  (msgs.zip scores).map fun p => p.2 * priority_multiplier (detect_message_type p.1)

/-- The score pipeline run by `StatisticalOptimizer.optimize` before
selection: relevance, then time decay, then type priority. -/
noncomputable def compute_scores (msgs : List Msg) : List ℝ :=
  apply_type_priority msgs (apply_time_decay msgs (calculate_relevance msgs))

/-- Stable insertion step for a descending sort by a real-valued key;
equal keys keep input order (Python `list.sort(key=..., reverse=True)`). -/
noncomputable def insertD {α : Type} (key : α → ℝ) (x : α) : List α → List α
  | [] => [x]
  | y :: ys => if key x < key y then y :: insertD key x ys else x :: y :: ys

/-- Stable descending sort by a real-valued key. -/
noncomputable def sortD {α : Type} (key : α → ℝ) : List α → List α
  | [] => []
  | x :: xs => insertD key x (sortD key xs)

/-- Stable insertion step for an ascending sort by a natural-number key. -/
def insertA {α : Type} (key : α → ℕ) (x : α) : List α → List α
  | [] => [x]
  | y :: ys => if key y < key x then y :: insertA key x ys else x :: y :: ys

/-- Stable ascending sort by a natural-number key (Python `list.sort(key=...)`). -/
def sortA {α : Type} (key : α → ℕ) : List α → List α
  | [] => []
  | x :: xs => insertA key x (sortA key xs)

/-- The truncation marker appended by `_select_optimal_subset`. -/
def trunc_marker : List Char := "... (truncated)".toList

/-- The truncated fill message built by `_select_optimal_subset` when a
message does not fit: content sliced to `available_tokens * 4` characters
plus the marker, token field set to the remaining budget, score inherited. -/
def truncated_fill (m : Msg) (s : ℝ) (avail : ℤ) : Msg :=
  { role := m.role, content := m.content.take (avail * 4).toNat ++ trunc_marker,
    timestamp := m.timestamp, tokens := some avail, relevance_score := some s,
    message_type := m.message_type }

/-- Greedy walk of `_select_optimal_subset` over the score-sorted
`(message, score, original_index)` triples.  Output entries are tagged with
the original index and a flag marking the derived fill message (whose Python
object identity is fresh).  A non-fitting message is skipped and the walk
continues unless the truncation branch fires, which appends the single fill
and stops. -/
def select_aux : List (Msg × ℝ × ℕ) → ℕ → ℤ → List (Msg × ℕ × Bool)
  | [], _, _ => []
  | (m, s, i) :: rest, total, maxT =>
    let t := token_estimate m
    if (total + t : ℤ) ≤ maxT then (m, i, false) :: select_aux rest (total + t) maxT
    else if 5 * (total : ℤ) < 4 * maxT ∧ 50 < maxT - (total : ℤ) then
      [(truncated_fill m s (maxT - total), i, true)]
    else select_aux rest total maxT

/-- The `(msg, score, i)` triples of `enumerate(zip(messages, scores))`,
starting at index `k`. -/
def data_aux : List Msg → List ℝ → ℕ → List (Msg × ℝ × ℕ)
  | m :: ms, s :: ss, k => (m, s, k) :: data_aux ms ss (k + 1)
  | _, _, _ => []

/-- `StatisticalOptimizer._select_optimal_subset`, index-tagged: sort by
score descending (stable), walk greedily, then restore chronological order
by original index. -/
noncomputable def select_optimal_subset (msgs : List Msg) (scores : List ℝ)
    (maxT : ℤ) : List (Msg × ℕ × Bool) :=
  sortA (fun x => x.2.1) (select_aux (sortD (fun x => x.2.1) (data_aux msgs scores 0)) 0 maxT)

/-- `StatisticalOptimizer.optimize` (scores then subset selection). -/
noncomputable def statistical_optimize (ctx : Conversation) (maxT : ℤ) : List Msg :=
  (select_optimal_subset ctx.messages (compute_scores ctx.messages) maxT).map fun x => x.1

/-- The derived truncated copy of an assistant reply appended by
`_preserve_conversation_flow`: content capped at 500 characters plus an
ellipsis when longer, fixed relevance score 0.5, token field left unset. -/
def flow_trunc (next : Msg) : Msg :=
  { role := next.role,
    content := if 500 < next.content.length then next.content.take 500 ++ "...".toList
      else next.content,
    timestamp := next.timestamp, tokens := none, relevance_score := some 0.5,
    message_type := next.message_type }

/-- The possible derived reply appended after a kept message `m` when the
immediately following original message is an unselected assistant reply. -/
def flow_extra (m : Msg) (rest : List Msg) (i : ℕ) (ids : List ℕ) : List Msg :=
  match rest with
  | [] => []
  | next :: _ =>
    if m.role = "user" ∧ next.role = "assistant" ∧ (i + 1) ∉ ids then
      [flow_trunc next]
    else []

/-- Walk of `_preserve_conversation_flow` over the original messages with
running index `i`: selected originals (by identity, i.e. by index) are kept;
after a selected user message immediately followed by an unselected
assistant message, the derived truncated reply is appended. -/
def flow_walk : List Msg → ℕ → List ℕ → List Msg
  | [], _, _ => []
  | m :: rest, i, ids =>
    (if i ∈ ids then m :: flow_extra m rest i ids else []) ++
      flow_walk rest (i + 1) ids

/-- `HybridOptimizer._preserve_conversation_flow`.  Selections of at most
two messages are returned unchanged.  Otherwise the walk keys membership on
Python object identity, so only index-tagged originals are matched; the
statistical fill message (a fresh object) is dropped by the walk. -/
def preserve_conversation_flow (origs : List Msg) (sel : List (Msg × ℕ × Bool)) :
    List Msg :=
  if sel.length ≤ 2 then sel.map fun x => x.1
  else flow_walk origs 0 (sel.filterMap fun x => if x.2.2 then none else some x.2.1)

/-- `HybridOptimizer._enhance_code_context`: code-bearing messages are
replaced by a condensed copy (token field left unset, type set to `code`). -/
def enhance_code_context (msgs : List Msg) : List Msg :=
  msgs.map fun m =>
    if contains_code m.content then
      { role := m.role, content := condense_code_content m.content,
        timestamp := m.timestamp, tokens := none,
        relevance_score := m.relevance_score, message_type := some "code" }
    else m

/-- Python `msg.relevance_score or 0` (`None` and `0.0` are falsy, both
yielding 0, which agrees with `Option.getD`). -/
def rel_or_zero (m : Msg) : ℝ := m.relevance_score.getD 0

open scoped Classical in
/-- Python `messages.index(msg)`: index of the first value-equal element
(dataclass `__eq__`); total function, only applied to members. -/
noncomputable def msg_index_of (m : Msg) : List Msg → ℕ
  | [] => 0
  | y :: ys => if m = y then 0 else msg_index_of m ys + 1

/-- Greedy inclusion walk of `_final_token_fitting`: include each message
whose tokens still fit, skip the others, never truncate, never stop. -/
def fit_greedy : List (Msg × ℝ) → ℕ → ℤ → List Msg
  | [], _, _ => []
  | (m, _) :: rest, total, maxT =>
    let t := token_estimate m
    if (total + t : ℤ) ≤ maxT then m :: fit_greedy rest (total + t) maxT
    else fit_greedy rest total maxT

open scoped Classical in
/-- `HybridOptimizer._final_token_fitting`: if the working set exceeds the
budget, keep highest-`relevance_score` messages that fit (stable descending
sort), then re-sort by the index of the first value-equal occurrence in the
working list. -/
noncomputable def final_token_fitting (msgs : List Msg) (maxT : ℤ) : List Msg :=
  if (total_estimate msgs : ℤ) ≤ maxT then msgs
  else
    let sorted := sortD (fun p => p.2) (msgs.map fun m => (m, rel_or_zero m))
    let selected := fit_greedy sorted 0 maxT
    sortA (fun m => if m ∈ msgs then msg_index_of m msgs else 0) selected

/-- `HybridOptimizer.optimize`: statistical baseline, flow preservation,
code-context enhancement, final token fitting. -/
noncomputable def hybrid_optimize (ctx : Conversation) (maxT : ℤ) : List Msg :=
  let selected := select_optimal_subset ctx.messages (compute_scores ctx.messages) maxT
  let flowed := preserve_conversation_flow ctx.messages selected
  let enhanced := enhance_code_context flowed
  final_token_fitting enhanced maxT

/-- The engine's strategy registry (`UniversalOptimizationEngine.__init__`). -/
noncomputable def strategies : List (String × (Conversation → ℤ → List Msg)) :=
  [("statistical", statistical_optimize), ("hybrid", hybrid_optimize)]

/-- The configured default strategy name. -/
def default_strategy : String := "hybrid"

/-- Result record of `optimize_context` (the wall-clock `processing_time`,
the diagnostics map and the back-reference to the original context are
omitted: no algorithmic content). -/
structure OptimizationResult where
  optimized_messages : List Msg
  original_tokens : ℕ
  optimized_tokens : ℕ
  reduction_percentage : ℝ
  strategy_used : String
  quality_score : ℝ

/-- `UniversalOptimizationEngine.optimize_context`: strategy resolution with
silent fallback to the default (`strategies.get(name, strategies[default])`,
where the default entry is the hybrid optimizer; `strategy or default` also
maps `None` and the empty string to the default), quality-mode budget
clamping, optimization and metric computation.  Note that `strategy_used`
is set to the resolved *name*, not to the name of the optimizer used. -/
noncomputable def optimize_context (ctx : Conversation) (maxT : ℤ)
    (strategy : Option String) (preserveQ : Bool) : OptimizationResult :=
  let strategyName :=
    match strategy with
    | none => default_strategy
    | some s => if s = "" then default_strategy else s
  let optimizer := (strategies.lookup strategyName).getD hybrid_optimize
  let originalTokens := total_estimate ctx.messages
  let effective : ℤ :=
    if preserveQ then min maxT (max 5000 ((originalTokens : ℤ) / 2)) else maxT
  let optimized := optimizer ctx effective
  let optimizedTokens := total_estimate optimized
  { optimized_messages := optimized,
    original_tokens := originalTokens,
    optimized_tokens := optimizedTokens,
    reduction_percentage :=
      if 0 < originalTokens then
        ((originalTokens : ℝ) - (optimizedTokens : ℝ)) / (originalTokens : ℝ) * 100
      else 0,
    strategy_used := strategyName,
    quality_score := calculate_quality_score ctx.messages optimized }

/-! ### Claim C7: message categorization -/

/-- The categorization rule as the specification states it: the keyword list
for `code` additionally contains `class ` and `import `, and the
interrogative words additionally contain `could you`. -/
def spec_categorize (m : Msg) : String :=
  let content := lower m.content
  if substr_in fence m.content ||
      (["def ", "function", "class ", "import "].map String.toList).any
        (fun k => substr_in k content) then "code"
  else if m.role = "user" ∧
      (content.contains '?' ||
        starts_with_any content
          (["how", "what", "why", "when", "where", "can you", "could you"].map
            String.toList)) then "question"
  else if m.role = "system" then "system"
  else "response"

/-- The categorization rule the implementation actually applies, stated as
the amended claim words it: `code` only on a fence marker or the two
keywords `def ` and `function ` (case-insensitive), `question` only on the
six interrogative openers without `could you`. -/
def ref_categorize (m : Msg) : String :=
  let content := lower m.content
  if substr_in fence m.content ||
      (["def ", "function "].map String.toList).any
        (fun k => substr_in k content) then "code"
  else if m.role = "user" ∧
      (content.contains '?' ||
        starts_with_any content
          (["how", "what", "why", "when", "where", "can you"].map
            String.toList)) then "question"
  else if m.role = "system" then "system"
  else "response"

/-- An assistant message reading `import os`: `code` for the specification's
rule, `response` for the implementation. -/
def msg_import : Msg :=
  { role := "assistant", content := "import os".toList, timestamp := none,
    tokens := none, relevance_score := none, message_type := none }

/-- An assistant message reading `class Foo:`: recognized by the hybrid
optimizer's `_contains_code` but not categorized `code` by
`_detect_message_type`. -/
def msg_classfoo : Msg :=
  { role := "assistant", content := "class Foo:".toList, timestamp := none,
    tokens := none, relevance_score := none, message_type := none }

/-- C7, counterexample: on the message `import os` the implemented
categorizer answers `response` while the claim's reference rule (whose code
keywords include `import `) answers `code`, so the claimed equality of the
two rules fails. -/
theorem C7_detect_message_type_differs_from_spec_rule :
    detect_message_type msg_import = "response" ∧
      spec_categorize msg_import = "code" := by
  constructor <;> decide

/-- C7, amended: the implemented categorizer agrees everywhere with the
corrected reference rule whose `code` keywords are exactly a fence marker,
`def ` and `function ` (case-insensitive) and whose interrogative openers
are `how`, `what`, `why`, `when`, `where`, `can you` (no `could you`);
moreover the hybrid components do not reuse this rule: `_contains_code`
accepts `class Foo:` although the categorizer does not classify it `code`. -/
theorem C7_detect_message_type_amended :
    (∀ m : Msg, detect_message_type m = ref_categorize m) ∧
      contains_code msg_classfoo.content = true ∧
      detect_message_type msg_classfoo ≠ "code" := by
  refine ⟨fun m => ?_, by decide, by decide⟩
  unfold detect_message_type ref_categorize
  simp only [List.map_cons, List.map_nil, List.any_cons, List.any_nil,
    Bool.or_false, Bool.or_assoc]

/-! ### Claim C9: quality score bounds -/

/-- C9: for every pair of original and optimized message lists (the empty
original list included) the quality score computed by the orchestrator lies
in the closed interval from 0 to 1. -/
theorem C9_quality_score_in_unit_interval (orig opt : List Msg) :
    0 ≤ calculate_quality_score orig opt ∧ calculate_quality_score orig opt ≤ 1 := by
  unfold calculate_quality_score
  by_cases h : orig.isEmpty
  · simp [h]
  · simp only [h, if_false]
    have hm : (0 : ℝ) ≤ (opt.length : ℝ) / (orig.length : ℝ) := by positivity
    have hc : (0 : ℝ) ≤
        (if 0 < code_count orig then (code_count opt : ℝ) / (code_count orig : ℝ)
          else 1) := by
      split <;> positivity
    have hf : (0 : ℝ) ≤
        (if 0 < count_conversation_pairs orig then
          (count_conversation_pairs opt : ℝ) / (count_conversation_pairs orig : ℝ)
          else 1) := by
      split <;> positivity
    constructor
    · apply le_min (by norm_num)
      nlinarith
    · exact min_le_left _ _

/-! ### Sorting permutation lemmas -/

theorem insertA_perm {α : Type} (key : α → ℕ) (x : α) (l : List α) :
    List.Perm (insertA key x l) (x :: l) := by
  induction l with
  | nil => simp [insertA]
  | cons y ys ih =>
    rw [insertA]
    split
    · exact (ih.cons y).trans (List.Perm.swap x y ys)
    · rfl

theorem sortA_perm {α : Type} (key : α → ℕ) (l : List α) : List.Perm (sortA key l) l := by
  induction l with
  | nil => rfl
  | cons x xs ih => exact (insertA_perm key x (sortA key xs)).trans (ih.cons x)

theorem insertD_perm {α : Type} (key : α → ℝ) (x : α) (l : List α) :
    List.Perm (insertD key x l) (x :: l) := by
  induction l with
  | nil => simp [insertD]
  | cons y ys ih =>
    rw [insertD]
    split
    · exact (ih.cons y).trans (List.Perm.swap x y ys)
    · rfl

theorem sortD_perm {α : Type} (key : α → ℝ) (l : List α) : List.Perm (sortD key l) l := by
  induction l with
  | nil => rfl
  | cons x xs ih => exact (insertD_perm key x (sortD key xs)).trans (ih.cons x)

/-! ### Claim C3: the selected subset against the budget -/

/-- Total token estimate of an index-tagged selection. -/
def tag_total (l : List (Msg × ℕ × Bool)) : ℕ :=
  (l.map fun x => token_estimate x.1).sum

theorem tag_total_eq (l : List (Msg × ℕ × Bool)) :
    total_estimate (l.map fun x => x.1) = tag_total l := by
  unfold total_estimate tag_total
  rw [List.map_map]
  rfl

/-- The token estimate of the truncated fill message exceeds the remaining
budget by exactly the marker overhead of at most 3 tokens. -/
theorem truncated_fill_tokens_le (m : Msg) (s : ℝ) (avail : ℤ) (h : 0 ≤ avail) :
    (token_estimate (truncated_fill m s avail) : ℤ) ≤ avail + 3 := by
  have hlen : (truncated_fill m s avail).content.length =
      min (avail * 4).toNat m.content.length + 15 := by
    simp [truncated_fill, trunc_marker]
  have h4 : (avail * 4).toNat = avail.toNat * 4 := by omega
  have hnat : token_estimate (truncated_fill m s avail) ≤ avail.toNat + 3 := by
    unfold token_estimate
    rw [hlen, h4]
    have : min (avail.toNat * 4) m.content.length + 15 ≤ avail.toNat * 4 + 15 := by
      omega
    calc (min (avail.toNat * 4) m.content.length + 15) / 4
        ≤ (avail.toNat * 4 + 15) / 4 := Nat.div_le_div_right this
      _ = avail.toNat + 3 := by omega
  have := Int.ofNat_le.mpr hnat
  omega

/-- Bound for the greedy walk: starting from a running total within budget,
the tokens of the selected entries stay within the remaining budget plus the
3-token marker overhead of the single possible fill. -/
theorem select_aux_total_le (l : List (Msg × ℝ × ℕ)) (total : ℕ) (b : ℤ)
    (h : (total : ℤ) ≤ b) :
    (tag_total (select_aux l total b) : ℤ) ≤ b - total + 3 := by
  induction l generalizing total with
  | nil => simp [select_aux, tag_total]; omega
  | cons x rest ih =>
    obtain ⟨m, s, i⟩ := x
    rw [select_aux]
    split
    · rename_i hfit
      have hrec := ih (total + token_estimate m) (by exact_mod_cast hfit)
      simp only [tag_total, List.map_cons, List.sum_cons] at *
      push_cast at *
      omega
    · split
      · rename_i hcond
        simp only [tag_total, List.map_cons, List.map_nil, List.sum_cons,
          List.sum_nil, add_zero]
        have hb : (50 : ℤ) < b - total := hcond.2
        have := truncated_fill_tokens_le m s (b - total) (by omega)
        omega
      · exact le_trans (ih total h) (by omega)

/-- With a negative budget nothing is ever selected. -/
theorem select_aux_neg (l : List (Msg × ℝ × ℕ)) (total : ℕ) (b : ℤ)
    (h : b < 0) : select_aux l total b = [] := by
  induction l generalizing total with
  | nil => rfl
  | cons x rest ih =>
    obtain ⟨m, s, i⟩ := x
    rw [select_aux]
    have h1 : ¬ ((total : ℤ) + token_estimate m ≤ b) := by
      have : (0 : ℤ) ≤ (total : ℤ) + token_estimate m := by positivity
      omega
    have h2 : ¬ (5 * (total : ℤ) < 4 * b ∧ 50 < b - (total : ℤ)) := by
      rintro ⟨hq, -⟩
      omega
    simp only [h1, if_false, h2, ih]

/-- A single 400-character message scored 0, to be selected under budget 60. -/
def msg400 : Msg :=
  { role := "user", content := List.replicate 400 'a', timestamp := none,
    tokens := none, relevance_score := none, message_type := none }

set_option maxRecDepth 4000 in
/-- C3, counterexample: selecting a single 400-character (100-token) message
under the budget 60 fires the truncation branch; the returned subset is one
truncated message of 240 characters plus the 15-character marker, i.e. 63
estimated tokens, which exceeds the budget of 60. -/
theorem C3_budget_exceeded_by_marker :
    total_estimate
        ((select_optimal_subset [msg400] [(0 : ℝ)] 60).map fun x => x.1) = 63 := by
  decide

/-- C3, amended: for every list of scored messages and every nonnegative
integer budget, the subset returned by the budget selector has total
estimated tokens at most `budget + 3` (the `... (truncated)` marker of the
single possible fill message adds up to 3 estimated tokens); for a negative
budget the selection is empty. -/
theorem C3_select_total_amended (msgs : List Msg) (scores : List ℝ) (b : ℤ) :
    (0 ≤ b →
      (total_estimate ((select_optimal_subset msgs scores b).map fun x => x.1) : ℤ)
        ≤ b + 3) ∧
      (b < 0 → select_optimal_subset msgs scores b = []) := by
  constructor
  · intro hb
    rw [tag_total_eq]
    unfold select_optimal_subset
    have hperm := (sortA_perm (fun x : Msg × ℕ × Bool => x.2.1)
      (select_aux (sortD (fun x => x.2.1) (data_aux msgs scores 0)) 0 b)).map
      fun x : Msg × ℕ × Bool => token_estimate x.1
    unfold tag_total
    rw [hperm.sum_eq]
    have := select_aux_total_le (sortD (fun x => x.2.1) (data_aux msgs scores 0)) 0 b
      (by exact_mod_cast hb)
    unfold tag_total at this
    omega
  · intro hb
    unfold select_optimal_subset
    rw [select_aux_neg _ _ _ hb]
    rfl

/-- C3, witness for the amended theorem at a concrete input: budget 60 on
the single 400-character message gives exactly 63 = 60 + 3 estimated tokens,
and budget -5 selects nothing. -/
theorem C3_select_total_amended_witness :
    (total_estimate ((select_optimal_subset [msg400] [(0 : ℝ)] 60).map fun x => x.1) : ℤ)
        ≤ 63 ∧
      select_optimal_subset [msg400] [(0 : ℝ)] (-5) = [] := by
  exact ⟨(C3_select_total_amended [msg400] [(0 : ℝ)] 60).1 (by norm_num),
    (C3_select_total_amended [msg400] [(0 : ℝ)] (-5)).2 (by norm_num)⟩

/-! ### Claim C4: behaviour of the walk at a non-fitting message -/

/-- A 340-character (85-token) message. -/
def msg340 : Msg :=
  { role := "user", content := List.replicate 340 'a', timestamp := none,
    tokens := none, relevance_score := none, message_type := none }

/-- A 200-character (50-token) message. -/
def msg200 : Msg :=
  { role := "user", content := List.replicate 200 'b', timestamp := none,
    tokens := none, relevance_score := none, message_type := none }

/-- A 60-character (15-token) message. -/
def msg60 : Msg :=
  { role := "user", content := List.replicate 60 'c', timestamp := none,
    tokens := none, relevance_score := none, message_type := none }

theorem sort_c4_eval :
    sortD (fun x => x.2.1) (data_aux [msg340, msg200, msg60] [3, 2, 1] 0) =
      [(msg340, (3 : ℝ), 0), (msg200, 2, 1), (msg60, 1, 2)] := by
  show sortD (fun x => x.2.1)
      [(msg340, (3 : ℝ), 0), (msg200, 2, 1), (msg60, 1, 2)] = _
  norm_num [sortD, insertD]

set_option maxRecDepth 8000 in
/-- C4, counterexample: with budget 100 over the score-sorted messages of
85, 50 and 15 tokens, the 50-token message fails to fit (85 + 50 > 100) and
the truncation branch does not fire (85 is not below 80% of 100), yet the
walk does not stop: the later 15-token message is still included whole, so
the selector returns the first and the third message. -/
theorem C4_scan_does_not_stop :
    (select_optimal_subset [msg340, msg200, msg60] [3, 2, 1] 100).map
        (fun x => x.1) = [msg340, msg60] ∧
      ¬ ((token_estimate msg340 : ℤ) + token_estimate msg200 ≤ 100) := by
  constructor
  · unfold select_optimal_subset
    rw [sort_c4_eval]
    rfl
  · decide

/-- C4, amended: when the walk over the score-sorted messages reaches a
message whose full token estimate does not fit the remaining budget, then if
the running total is below 80% of the budget and the remaining budget
exceeds 50 tokens, exactly one truncated fill message is returned and
scanning stops; otherwise that message is skipped and scanning continues
with the remaining messages, which may still be included whole. -/
theorem C4_select_walk_amended (m : Msg) (s : ℝ) (i : ℕ)
    (rest : List (Msg × ℝ × ℕ)) (total : ℕ) (b : ℤ)
    (hfit : ¬ ((total : ℤ) + token_estimate m ≤ b)) :
    (5 * (total : ℤ) < 4 * b ∧ 50 < b - (total : ℤ) →
      select_aux ((m, s, i) :: rest) total b =
        [(truncated_fill m s (b - total), i, true)]) ∧
      (¬ (5 * (total : ℤ) < 4 * b ∧ 50 < b - (total : ℤ)) →
        select_aux ((m, s, i) :: rest) total b = select_aux rest total b) := by
  constructor <;> intro h <;> rw [select_aux] <;> simp only [if_neg hfit]
  · rw [if_pos h]
  · rw [if_neg h]

set_option maxRecDepth 4000 in
/-- C4, witness for the amended theorem: at budget 60 a 100-token message
fails to fit with the truncation conditions satisfied, so the walk returns
the single fill and drops the rest; at budget 100 after 85 accumulated
tokens a 50-token message fails with the conditions unsatisfied, and the
walk continues into the remaining list. -/
theorem C4_select_walk_amended_witness :
    select_aux [(msg400, (0 : ℝ), 0), (msg60, 0, 1)] 0 60 =
        [(truncated_fill msg400 0 60, 0, true)] ∧
      select_aux [(msg200, (2 : ℝ), 1), (msg60, 1, 2)] 85 100 =
        select_aux [(msg60, (1 : ℝ), 2)] 85 100 := by
  refine ⟨(C4_select_walk_amended msg400 0 0 [(msg60, 0, 1)] 0 60 ?_).1 ?_,
    (C4_select_walk_amended msg200 2 1 [(msg60, 1, 2)] 85 100 ?_).2 ?_⟩
  · decide
  · decide
  · decide
  · decide

/-! ### Claim C6: time decay -/

/-- The per-message decay formula applied to a `(message, score)` pair at
position `i`. -/
noncomputable def decay_formula (anchor : ℚ) (n : ℕ) (p : Msg × ℝ) (i : ℕ) : ℝ :=
  match p.1.timestamp with
  | some t => p.2 * (0.3 + 0.7 * ((1 / 2 : ℝ) ^ (((anchor - t : ℚ) : ℝ) / 24)))
  | none => p.2 * (0.5 + 0.5 * ((i : ℝ) / (n : ℝ)))

/-- The time-decay pass as the claim states it: anchored on the timestamp of
the most recent timestamped message (the last one in chronological list
order), each timestamped message's score is blended with the 24-hour
half-life factor, each untimestamped message gets the position-based factor,
and with no timestamps at all every message gets the position-based factor. -/
noncomputable def ref_time_decay (msgs : List Msg) (scores : List ℝ) : List ℝ :=
  (List.range msgs.length).map fun i =>
    match find_most_recent msgs, (msgs.getD i mdefault).timestamp with
    | some anchor, some t =>
      scores.getD i 0 * (0.3 + 0.7 * ((1 / 2 : ℝ) ^ (((anchor - t : ℚ) : ℝ) / 24)))
    | _, _ => scores.getD i 0 * (0.5 + 0.5 * ((i : ℝ) / (msgs.length : ℝ)))

theorem getD_map_range (f : ℕ → ℝ) {i n : ℕ} (hi : i < n) :
    (((List.range n).map f).getD i 0) = f i := by
  rw [List.getD_eq_getElem?_getD, List.getElem?_map, List.getElem?_range hi]
  rfl

theorem getD_zip_eq (msgs : List Msg) (scores : List ℝ) (j : ℕ)
    (hj : j < msgs.length) (h : scores.length = msgs.length) :
    (msgs.zip scores).getD j (mdefault, 0) =
      (msgs.getD j mdefault, scores.getD j 0) := by
  induction msgs generalizing scores j with
  | nil => simp at hj
  | cons m ms ih =>
    cases scores with
    | nil => simp at h
    | cons s ss =>
      cases j with
      | zero => simp [List.getD]
      | succ j =>
        simp only [List.zip_cons_cons, List.getD_cons_succ]
        exact ih ss j (by simpa using hj) (by simpa using h)

theorem pos_decay_aux_eq (n : ℕ) (scores : List ℝ) (k : ℕ) :
    pos_decay_aux n scores k =
      (List.range scores.length).map fun j =>
        scores.getD j 0 * (0.5 + 0.5 * (((k + j : ℕ) : ℝ) / (n : ℝ))) := by
  induction scores generalizing k with
  | nil => rfl
  | cons s rest ih =>
    rw [pos_decay_aux, ih (k + 1)]
    simp only [List.length_cons, List.range_succ_eq_map, List.map_cons,
      List.map_map, List.getD_cons_zero, Nat.add_zero]
    congr 1
    apply List.map_congr_left
    intro j _
    simp only [Function.comp_apply, List.getD_cons_succ]
    have harith : k + 1 + j = k + (j + 1) := by omega
    rw [harith]

theorem decay_aux_eq (anchor : ℚ) (n : ℕ) (l : List (Msg × ℝ)) (k : ℕ) :
    decay_aux anchor n l k =
      (List.range l.length).map fun j =>
        decay_formula anchor n (l.getD j (mdefault, 0)) (k + j) := by
  induction l generalizing k with
  | nil => rfl
  | cons p rest ih =>
    obtain ⟨m, s⟩ := p
    rw [decay_aux, ih (k + 1)]
    simp only [List.length_cons, List.range_succ_eq_map, List.map_cons,
      List.map_map, List.getD_cons_zero, Nat.add_zero]
    congr 1
    apply List.map_congr_left
    intro j _
    simp only [Function.comp_apply, List.getD_cons_succ]
    have harith : k + 1 + j = k + (j + 1) := by omega
    rw [harith]

theorem find_most_recent_isSome (msgs : List Msg) (i : ℕ) (hi : i < msgs.length)
    (ht : ((msgs.getD i mdefault).timestamp).isSome) :
    (find_most_recent msgs).isSome := by
  induction msgs generalizing i with
  | nil => simp at hi
  | cons m ms ih =>
    rw [find_most_recent]
    cases i with
    | zero =>
      simp only [List.getD_cons_zero] at ht
      cases hrec : find_most_recent ms with
      | none => simpa [Option.orElse, hrec] using ht
      | some t => simp [Option.orElse, hrec]
    | succ i =>
      have := ih i (by simpa using hi) (by simpa using ht)
      cases hrec : find_most_recent ms with
      | none => rw [hrec] at this; simp at this
      | some t => simp [Option.orElse, hrec]

/-- C6: for every message list (with a score list of matching length), the
time-decay pass equals the claim's formula-based reference: it anchors on
the timestamp of the most recent timestamped message, maps each timestamped
message's score through the 24-hour half-life blend, and each untimestamped
message (or every message, when none carries a timestamp) through the
position-based formula; consequently no timestamped message's nonnegative
score is reduced below 30 percent of its base score by age. -/
theorem C6_time_decay_formula (msgs : List Msg) (scores : List ℝ)
    (h : scores.length = msgs.length) :
    apply_time_decay msgs scores = ref_time_decay msgs scores ∧
      ∀ i, i < msgs.length → ((msgs.getD i mdefault).timestamp).isSome →
        0 ≤ scores.getD i 0 →
        0.3 * scores.getD i 0 ≤ (apply_time_decay msgs scores).getD i 0 := by
  have hmain : apply_time_decay msgs scores = ref_time_decay msgs scores := by
    unfold apply_time_decay ref_time_decay
    by_cases hemp : msgs.isEmpty
    · have h0 : msgs.length = 0 := by simpa [List.isEmpty_iff_length_eq_zero] using hemp
      have : scores = [] := List.eq_nil_of_length_eq_zero (by omega)
      simp [hemp, h0, this]
    · rw [if_neg hemp]
      cases hanchor : find_most_recent msgs with
      | none =>
        show pos_decay_aux msgs.length scores 0 = _
        rw [pos_decay_aux_eq msgs.length scores 0, h]
        apply List.map_congr_left
        intro j _
        simp
      | some anchor =>
        show decay_aux anchor msgs.length (msgs.zip scores) 0 = _
        rw [decay_aux_eq anchor msgs.length (msgs.zip scores) 0]
        have hlen : (msgs.zip scores).length = msgs.length := by
          rw [List.length_zip, h, min_self]
        rw [hlen]
        apply List.map_congr_left
        intro j hj
        rw [List.mem_range] at hj
        rw [getD_zip_eq msgs scores j hj h]
        unfold decay_formula
        cases htime : (msgs.getD j mdefault).timestamp with
        | none => simp
        | some t => simp
  refine ⟨hmain, fun i hi ht hs => ?_⟩
  rw [hmain]
  unfold ref_time_decay
  rw [getD_map_range _ hi]
  obtain ⟨t, htt⟩ := Option.isSome_iff_exists.mp ht
  obtain ⟨anchor, hanchor⟩ :=
    Option.isSome_iff_exists.mp (find_most_recent_isSome msgs i hi ht)
  rw [hanchor, htt]
  have hd : 0 < (1 / 2 : ℝ) ^ (((anchor - t : ℚ) : ℝ) / 24) :=
    Real.rpow_pos_of_pos (by norm_num) _
  nlinarith [mul_nonneg hs hd.le]

/-- A message timestamped at hour 0. -/
def msg_t0 : Msg :=
  { role := "user", content := "hello world message".toList, timestamp := some 0,
    tokens := none, relevance_score := none, message_type := none }

/-- C6, witness: on the single timestamped message with score 1 the pass
follows the reference formula, and the decayed score is at least 0.3. -/
theorem C6_time_decay_formula_witness :
    apply_time_decay [msg_t0] [(1 : ℝ)] = ref_time_decay [msg_t0] [(1 : ℝ)] ∧
      0.3 * ((1 : ℝ) : ℝ) ≤ (apply_time_decay [msg_t0] [(1 : ℝ)]).getD 0 0 := by
  refine ⟨(C6_time_decay_formula [msg_t0] [(1 : ℝ)] (by simp)).1, ?_⟩
  have := (C6_time_decay_formula [msg_t0] [(1 : ℝ)] (by simp)).2 0 (by simp)
    (by simp [msg_t0]) (by norm_num)
  simpa using this

/-! ### Claim C10: idempotence of code condensation -/

theorem split_nl_ne_nil (c : List Char) : split_nl c ≠ [] := by
  induction c with
  | nil => simp [split_nl]
  | cons c cs ih =>
    rw [split_nl]
    split
    · simp
    · split
      · simp
      · simp

theorem split_nl_no_nl (c : List Char) : ∀ l ∈ split_nl c, '\n' ∉ l := by
  induction c with
  | nil => intro l hl; rw [split_nl] at hl; simp at hl; simp [hl]
  | cons c cs ih =>
    intro l hl
    rw [split_nl] at hl
    by_cases hc : c = '\n'
    · rw [if_pos hc] at hl
      rcases List.mem_cons.mp hl with h | h
      · simp [h]
      · exact ih l h
    · rw [if_neg hc] at hl
      cases heq : split_nl cs with
      | nil => exact absurd heq (split_nl_ne_nil cs)
      | cons h t =>
        rw [heq] at hl
        rcases List.mem_cons.mp hl with hm | hm
        · subst hm
          intro hmem
          rcases List.mem_cons.mp hmem with h1 | h1
          · exact hc h1.symm
          · exact ih h (heq ▸ List.mem_cons_self h t) h1
        · exact ih l (heq ▸ List.mem_cons_of_mem h hm)

theorem split_nl_single (xs : List Char) (h : '\n' ∉ xs) : split_nl xs = [xs] := by
  induction xs with
  | nil => rfl
  | cons c cs ih =>
    have hc : ¬ c = '\n' := fun hh => h (hh ▸ List.mem_cons_self c cs)
    rw [split_nl, if_neg hc, ih fun hh => h (List.mem_cons_of_mem c hh)]

theorem split_nl_append (xs rest : List Char) (h : '\n' ∉ xs) :
    split_nl (xs ++ '\n' :: rest) = xs :: split_nl rest := by
  induction xs with
  | nil => simp [split_nl]
  | cons c cs ih =>
    have hc : ¬ c = '\n' := fun hh => h (hh ▸ List.mem_cons_self c cs)
    rw [List.cons_append, split_nl, if_neg hc,
      ih fun hh => h (List.mem_cons_of_mem c hh)]

theorem join_split (ls : List (List Char)) (hne : ls ≠ [])
    (hnl : ∀ l ∈ ls, '\n' ∉ l) : split_nl (join_nl ls) = ls := by
  induction ls with
  | nil => exact absurd rfl hne
  | cons x t ih =>
    cases t with
    | nil => exact split_nl_single x (hnl x (List.mem_cons_self x []))
    | cons y t' =>
      have h1 : split_nl (join_nl (y :: t')) = y :: t' :=
        ih (List.cons_ne_nil y t') fun l hl => hnl l (List.mem_cons_of_mem x hl)
      rw [join_nl, split_nl_append x _ (hnl x (List.mem_cons_self x (y :: t'))), h1]
      exact List.cons_ne_nil y t'

/-! Branch equations for the condensation loop. -/

theorem condense_aux_fence (line : List Char) (rest : List (List Char)) (b : Bool)
    (acc : List (List Char)) (h : fence.isPrefixOf (py_strip line) = true) :
    condense_aux (line :: rest) b acc = condense_aux rest (!b) (line :: acc) := by
  simp only [condense_aux]
  rw [if_pos h]

theorem condense_aux_outside (line : List Char) (rest : List (List Char))
    (acc : List (List Char)) (h : ¬ fence.isPrefixOf (py_strip line) = true) :
    condense_aux (line :: rest) false acc = condense_aux rest false (line :: acc) := by
  simp only [condense_aux]
  rw [if_neg h, if_neg (by simp : ¬ (false = true))]

theorem condense_aux_keepstep (line : List Char) (rest : List (List Char))
    (acc : List (List Char)) (h : ¬ fence.isPrefixOf (py_strip line) = true)
    (hk : keep_line (py_strip line) = true) :
    condense_aux (line :: rest) true acc = condense_aux rest true (line :: acc) := by
  simp only [condense_aux]
  rw [if_neg h, if_pos trivial, if_pos hk]

theorem condense_aux_elide (line : List Char) (rest : List (List Char))
    (acc : List (List Char)) (h : ¬ fence.isPrefixOf (py_strip line) = true)
    (hk : ¬ keep_line (py_strip line) = true)
    (hc : acc ≠ [] ∧ ¬ elision.isSuffixOf (py_strip (acc.headD [])) = true) :
    condense_aux (line :: rest) true acc =
      condense_aux rest true
        ((line.take (py_index_sub (py_strip line) line) ++ elision) :: acc) := by
  simp only [condense_aux]
  rw [if_neg h, if_pos trivial, if_neg hk, if_pos hc]

theorem condense_aux_dropstep (line : List Char) (rest : List (List Char))
    (acc : List (List Char)) (h : ¬ fence.isPrefixOf (py_strip line) = true)
    (hk : ¬ keep_line (py_strip line) = true)
    (hc : ¬ (acc ≠ [] ∧ ¬ elision.isSuffixOf (py_strip (acc.headD [])) = true)) :
    condense_aux (line :: rest) true acc = condense_aux rest true acc := by
  simp only [condense_aux]
  rw [if_neg h, if_pos trivial, if_neg hk, if_neg hc]

/-- Lines that a second condensation pass keeps verbatim: fences toggle the
block state, and every non-fence line inside a block satisfies the keep
test. -/
inductive GoodLines : Bool → List (List Char) → Prop
  | nil (b : Bool) : GoodLines b []
  | fence_cons {b : Bool} {line : List Char} {rest : List (List Char)} :
      fence.isPrefixOf (py_strip line) = true → GoodLines (!b) rest →
      GoodLines b (line :: rest)
  | keep_cons {b : Bool} {line : List Char} {rest : List (List Char)} :
      ¬ fence.isPrefixOf (py_strip line) = true →
      (b = true → keep_line (py_strip line) = true) → GoodLines b rest →
      GoodLines b (line :: rest)

theorem condense_keep (lines : List (List Char)) (b : Bool)
    (accRev : List (List Char)) (hg : GoodLines b lines) :
    condense_aux lines b accRev = accRev.reverse ++ lines := by
  induction hg generalizing accRev with
  | nil b => simp [condense_aux]
  | fence_cons hf _ ih =>
    rename_i b line rest _
    rw [condense_aux_fence line rest b accRev hf, ih (line :: accRev)]
    simp
  | keep_cons hf hk _ ih =>
    rename_i b line rest _
    cases b with
    | false =>
      rw [condense_aux_outside line rest accRev hf, ih (line :: accRev)]
      simp
    | true =>
      rw [condense_aux_keepstep line rest accRev hf (hk rfl), ih (line :: accRev)]
      simp

theorem dropWhile_append_of_all {p : Char → Bool} (w r : List Char)
    (hw : ∀ x ∈ w, p x) : List.dropWhile p (w ++ r) = List.dropWhile p r := by
  induction w with
  | nil => rfl
  | cons x w' ih =>
    rw [List.cons_append, List.dropWhile_cons,
      if_pos (hw x (List.mem_cons_self x w'))]
    exact ih fun y hy => hw y (List.mem_cons_of_mem x hy)

theorem dropWhile_head_not (p : Char → Bool) (l : List Char) (c : Char)
    (cs : List Char) (h : List.dropWhile p l = c :: cs) : p c = false := by
  induction l with
  | nil => simp [List.dropWhile] at h
  | cons x xs ih =>
    rw [List.dropWhile_cons] at h
    by_cases hx : p x = true
    · rw [if_pos hx] at h
      exact ih h
    · rw [if_neg hx] at h
      cases h
      simpa using hx

theorem index_sub_ws (st d : List Char) (w : List Char)
    (hw : ∀ x ∈ w, is_py_ws x) (hpre : st.isPrefixOf d = true)
    (c : Char) (st2 : List Char) (hst : st = c :: st2) (hc : is_py_ws c = false) :
    py_index_sub st (w ++ d) = w.length := by
  induction w with
  | nil =>
    subst hst
    cases d with
    | nil => simp [List.isPrefixOf] at hpre
    | cons e es =>
      rw [List.nil_append, py_index_sub, if_pos hpre]
      rfl
  | cons x w2 ih =>
    have hx : is_py_ws x = true := hw x (List.mem_cons_self x w2)
    have hcx : (c == x) = false := by
      rw [beq_eq_false_iff_ne]
      intro heq
      rw [heq, hx] at hc
      simp at hc
    have hne : ¬ st.isPrefixOf (x :: (w2 ++ d)) = true := by
      subst hst
      intro habs
      simp only [List.isPrefixOf, Bool.and_eq_true] at habs
      rw [hcx] at habs
      simp at habs
    rw [List.cons_append, py_index_sub, if_neg hne,
      ih fun y hy => hw y (List.mem_cons_of_mem x hy)]
    rfl

theorem strip_head_not_ws (line : List Char) (c : Char) (st2 : List Char)
    (h : py_strip line = c :: st2) : is_py_ws c = false := by
  have hpre : py_strip line <+: line.dropWhile is_py_ws :=
    List.rdropWhile_prefix is_py_ws (line.dropWhile is_py_ws)
  obtain ⟨t, ht⟩ := hpre
  rw [h, List.cons_append] at ht
  exact dropWhile_head_not is_py_ws line c (st2 ++ t) ht.symm

theorem take_index_all_ws (line : List Char) (hne : py_strip line ≠ []) :
    ∀ x ∈ line.take (py_index_sub (py_strip line) line), is_py_ws x := by
  obtain ⟨c, st2, hst⟩ := List.exists_cons_of_ne_nil hne
  have hc : is_py_ws c = false := strip_head_not_ws line c st2 hst
  have hpre : (py_strip line).isPrefixOf (line.dropWhile is_py_ws) = true := by
    rw [List.isPrefixOf_iff_prefix]
    exact List.rdropWhile_prefix is_py_ws (line.dropWhile is_py_ws)
  have hw : ∀ x ∈ line.takeWhile is_py_ws, is_py_ws x := fun x hx =>
    List.mem_takeWhile_imp hx
  have hsplit : line.takeWhile is_py_ws ++ line.dropWhile is_py_ws = line :=
    List.takeWhile_append_dropWhile is_py_ws line
  have hidx : py_index_sub (py_strip line)
      (line.takeWhile is_py_ws ++ line.dropWhile is_py_ws) =
      (line.takeWhile is_py_ws).length :=
    index_sub_ws (py_strip line) (line.dropWhile is_py_ws)
      (line.takeWhile is_py_ws) hw hpre c st2 hst hc
  have htake : (line.takeWhile is_py_ws ++ line.dropWhile is_py_ws).take
      (line.takeWhile is_py_ws).length = line.takeWhile is_py_ws :=
    List.take_left _ _
  rw [hsplit] at hidx htake
  rw [hidx, htake]
  exact hw

theorem strip_ws_elision (w : List Char) (hw : ∀ x ∈ w, is_py_ws x) :
    py_strip (w ++ elision) = elision := by
  rw [py_strip, dropWhile_append_of_all w elision hw]
  decide

theorem good_elision (line : List Char) (hne : py_strip line ≠ []) :
    ¬ fence.isPrefixOf
        (py_strip (line.take (py_index_sub (py_strip line) line) ++ elision)) = true ∧
      keep_line
        (py_strip (line.take (py_index_sub (py_strip line) line) ++ elision)) = true := by
  rw [strip_ws_elision _ (take_index_all_ws line hne)]
  constructor <;> decide

theorem condense_good (lines : List (List Char)) (b : Bool)
    (accRev : List (List Char)) :
    ∃ out, condense_aux lines b accRev = accRev.reverse ++ out ∧ GoodLines b out := by
  induction lines generalizing b accRev with
  | nil => exact ⟨[], by simp [condense_aux], GoodLines.nil b⟩
  | cons line rest ih =>
    by_cases hf : fence.isPrefixOf (py_strip line) = true
    · obtain ⟨out, ho, hg⟩ := ih (!b) (line :: accRev)
      refine ⟨line :: out, ?_, GoodLines.fence_cons hf hg⟩
      rw [condense_aux_fence line rest b accRev hf, ho]
      simp
    · cases b with
      | false =>
        obtain ⟨out, ho, hg⟩ := ih false (line :: accRev)
        refine ⟨line :: out, ?_, GoodLines.keep_cons hf (by simp) hg⟩
        rw [condense_aux_outside line rest accRev hf, ho]
        simp
      | true =>
        by_cases hk : keep_line (py_strip line) = true
        · obtain ⟨out, ho, hg⟩ := ih true (line :: accRev)
          refine ⟨line :: out, ?_, GoodLines.keep_cons hf (fun _ => hk) hg⟩
          rw [condense_aux_keepstep line rest accRev hf hk, ho]
          simp
        · have hst : py_strip line ≠ [] := by
            intro hnil
            exact hk (by rw [hnil]; decide)
          by_cases hcond : accRev ≠ [] ∧
              ¬ elision.isSuffixOf (py_strip (accRev.headD [])) = true
          · obtain ⟨out, ho, hg⟩ :=
              ih true ((line.take (py_index_sub (py_strip line) line) ++ elision) :: accRev)
            refine ⟨(line.take (py_index_sub (py_strip line) line) ++ elision) :: out, ?_,
              GoodLines.keep_cons (good_elision line hst).1
                (fun _ => (good_elision line hst).2) hg⟩
            rw [condense_aux_elide line rest accRev hf hk hcond, ho]
            simp
          · obtain ⟨out, ho, hg⟩ := ih true accRev
            exact ⟨out, by rw [condense_aux_dropstep line rest accRev hf hk hcond, ho], hg⟩

theorem condense_no_nl (lines : List (List Char)) (b : Bool)
    (acc : List (List Char)) (hl : ∀ l ∈ lines, '\n' ∉ l)
    (ha : ∀ l ∈ acc, '\n' ∉ l) : ∀ l ∈ condense_aux lines b acc, '\n' ∉ l := by
  induction lines generalizing b acc with
  | nil =>
    intro l hml
    rw [condense_aux] at hml
    exact ha l (List.mem_reverse.mp hml)
  | cons line rest ih =>
    have hline : '\n' ∉ line := hl line (List.mem_cons_self _ _)
    have hrest : ∀ l ∈ rest, '\n' ∉ l := fun l hml => hl l (List.mem_cons_of_mem _ hml)
    have hacc : ∀ l ∈ line :: acc, '\n' ∉ l := fun x hx => by
      rcases List.mem_cons.mp hx with rfl | hx
      exacts [hline, ha x hx]
    by_cases hf : fence.isPrefixOf (py_strip line) = true
    · rw [condense_aux_fence line rest b acc hf]
      exact ih (!b) (line :: acc) hrest hacc
    · cases b with
      | false =>
        rw [condense_aux_outside line rest acc hf]
        exact ih false (line :: acc) hrest hacc
      | true =>
        by_cases hk : keep_line (py_strip line) = true
        · rw [condense_aux_keepstep line rest acc hf hk]
          exact ih true (line :: acc) hrest hacc
        · by_cases hcond : acc ≠ [] ∧
              ¬ elision.isSuffixOf (py_strip (acc.headD [])) = true
          · rw [condense_aux_elide line rest acc hf hk hcond]
            refine ih true _ hrest fun x hx => ?_
            rcases List.mem_cons.mp hx with rfl | hx
            · intro hmem
              rcases List.mem_append.mp hmem with hm | hm
              · exact hline (List.take_subset _ _ hm)
              · revert hm
                decide
            · exact ha x hx
          · rw [condense_aux_dropstep line rest acc hf hk hcond]
            exact ih true acc hrest ha

/-- C10: the code-condensation function is idempotent: every line the first
pass keeps (fence markers, keep-test lines, all lines outside fenced blocks,
and the inserted `// ...` elision markers, themselves comment lines) passes
the keep test again, so a second pass reproduces its input. -/
theorem C10_condense_idempotent (c : List Char) :
    condense_code_content (condense_code_content c) = condense_code_content c := by
  obtain ⟨out, ho, hg⟩ := condense_good (split_nl c) false []
  have hout_eq : condense_code_content c = join_nl out := by
    rw [condense_code_content, ho]
    rfl
  by_cases hempty : out = []
  · rw [hout_eq, hempty]
    decide
  · have hnl : ∀ l ∈ out, '\n' ∉ l := by
      have := condense_no_nl (split_nl c) false [] (split_nl_no_nl c) (by simp)
      rw [ho] at this
      simpa using this
    rw [hout_eq, condense_code_content, join_split out hempty hnl,
      condense_keep out false [] hg]
    rfl

/-! ### Claim C5: conversation-flow preservation -/

theorem flatMap_map_comp {α β γ : Type} (g : α → β) (f : β → List γ) (l : List α) :
    (l.map g).flatMap f = l.flatMap (f ∘ g) := by
  induction l with
  | nil => rfl
  | cons x xs ih => simp only [List.map_cons, List.flatMap_cons, ih]; rfl

/-- The flow-preservation walk as the claim words it, written over the index
range of the original conversation: each selected original is kept, and
after a selected user message immediately followed by an unselected
assistant message the derived truncated reply is appended. -/
def flow_spec (origs : List Msg) (ids : List ℕ) : List Msg :=
  (List.range origs.length).flatMap fun i =>
    if i ∈ ids then
      origs.getD i mdefault ::
        (if (origs.getD i mdefault).role = "user" ∧ i + 1 < origs.length ∧
            (origs.getD (i + 1) mdefault).role = "assistant" ∧ (i + 1) ∉ ids then
          [flow_trunc (origs.getD (i + 1) mdefault)]
        else [])
    else []

theorem flow_walk_cons (m : Msg) (rest : List Msg) (i : ℕ) (ids : List ℕ) :
    flow_walk (m :: rest) i ids =
      (if i ∈ ids then m :: flow_extra m rest i ids else []) ++
        flow_walk rest (i + 1) ids := rfl

theorem flow_extra_nil (m : Msg) (i : ℕ) (ids : List ℕ) :
    flow_extra m [] i ids = [] := rfl

theorem flow_extra_cons (m next : Msg) (rest : List Msg) (i : ℕ) (ids : List ℕ) :
    flow_extra m (next :: rest) i ids =
      if m.role = "user" ∧ next.role = "assistant" ∧ (i + 1) ∉ ids then
        [flow_trunc next]
      else [] := rfl

theorem flow_walk_eq (l : List Msg) (ids : List ℕ) : ∀ k : ℕ,
    flow_walk l k ids = (List.range l.length).flatMap fun j =>
      if (k + j) ∈ ids then
        l.getD j mdefault ::
          (if (l.getD j mdefault).role = "user" ∧ j + 1 < l.length ∧
              (l.getD (j + 1) mdefault).role = "assistant" ∧ (k + j + 1) ∉ ids then
            [flow_trunc (l.getD (j + 1) mdefault)]
          else [])
      else [] := by
  induction l with
  | nil => intro k; rfl
  | cons m rest ih =>
    intro k
    rw [flow_walk_cons, ih (k + 1)]
    rw [List.length_cons, List.range_succ_eq_map, List.flatMap_cons,
      flatMap_map_comp]
    congr 1
    · simp only [Nat.add_zero, List.getD_cons_zero, List.getD_cons_succ]
      by_cases hk : k ∈ ids
      · rw [if_pos hk, if_pos hk]
        cases rest with
        | nil =>
          rw [flow_extra_nil]
          simp
        | cons next rest2 =>
          rw [flow_extra_cons]
          congr 1
          by_cases hu : m.role = "user"
          · by_cases ha : next.role = "assistant"
            · by_cases hn : (k + 1) ∈ ids
              · rw [if_neg (by tauto), if_neg (by tauto)]
              · rw [if_pos ⟨hu, ha, hn⟩,
                  if_pos ⟨hu, by simp only [List.length_cons]; omega,
                    by simpa using ha, by simpa using hn⟩]
                rfl
            · rw [if_neg (by tauto), if_neg (by simp only [List.getD_cons_zero]; tauto)]
          · rw [if_neg (by tauto), if_neg (by tauto)]
      · rw [if_neg hk, if_neg hk]
    · apply List.flatMap_congr
      intro j _
      simp only [Function.comp_apply, List.getD_cons_succ, Nat.succ_eq_add_one,
        List.length_cons]
      have h1 : k + 1 + j = k + (j + 1) := by omega
      rw [h1]
      refine if_congr Iff.rfl (congrArg _ ?_) rfl
      refine if_congr ?_ rfl rfl
      constructor
      · rintro ⟨a, b, c, d⟩
        exact ⟨a, by omega, c, d⟩
      · rintro ⟨a, b, c, d⟩
        exact ⟨a, by omega, c, d⟩

theorem flow_walk_mem (l : List Msg) (ids : List ℕ) : ∀ (k i : ℕ),
    i < l.length → (k + i) ∈ ids → l.getD i mdefault ∈ flow_walk l k ids := by
  induction l with
  | nil => intro k i hi; simp at hi
  | cons m rest ih =>
    intro k i hi hmem
    rw [flow_walk_cons]
    cases i with
    | zero =>
      apply List.mem_append_left
      rw [if_pos (by simpa using hmem)]
      exact List.mem_cons_self _ _
    | succ i =>
      apply List.mem_append_right
      have hi2 : i < rest.length := by
        simp only [List.length_cons] at hi
        omega
      have hm2 : (k + 1) + i ∈ ids := by
        have harith : (k + 1) + i = k + (i + 1) := by omega
        rw [harith]
        exact hmem
      exact ih (k + 1) i hi2 hm2

/-- The index-tagged selection corresponding to choosing the original
messages at the given positions. -/
def sel_of (origs : List Msg) (positions : List ℕ) : List (Msg × ℕ × Bool) :=
  positions.map fun i => (origs.getD i mdefault, i, false)

/-- A short user message. -/
def msg_u : Msg :=
  { role := "user", content := "please show the fix".toList, timestamp := none,
    tokens := none, relevance_score := none, message_type := none }

/-- A short assistant reply. -/
def msg_a : Msg :=
  { role := "assistant", content := "the fix is to rename it".toList,
    timestamp := none, tokens := none, relevance_score := none,
    message_type := none }

/-- C5, counterexample: for the two-message conversation `user` then
`assistant` with only the user message selected, the claim demands that a
derived truncated copy of the unselected assistant reply be appended after
it; but the pass returns any selection of at most two messages unchanged,
so the output is the lone user message and contains no assistant message at
all. -/
theorem C5_flow_small_selection_unchanged :
    preserve_conversation_flow [msg_u, msg_a] [(msg_u, 0, false)] = [msg_u] ∧
      ∀ m ∈ preserve_conversation_flow [msg_u, msg_a] [(msg_u, 0, false)],
        m.role ≠ "assistant" := by
  refine ⟨rfl, ?_⟩
  intro m hm
  rw [show preserve_conversation_flow [msg_u, msg_a] [(msg_u, 0, false)] = [msg_u]
    from rfl] at hm
  simp only [List.mem_singleton] at hm
  subst hm
  decide

/-- C5, amended: the flow-preservation pass applies only when the selection
has more than two messages (selections of at most two are returned
unchanged); when it applies, its output is exactly the claim's walk — every
selected original kept in order and, after each selected user message
immediately followed in the original sequence by an unselected assistant
message, a derived truncated copy of that assistant message (content capped
at 500 characters plus an ellipsis, relevance score 0.5) — and in every case
the output contains every message of the selection. -/
theorem C5_flow_preservation_amended (origs : List Msg) (positions : List ℕ) :
    ((sel_of origs positions).length ≤ 2 →
      preserve_conversation_flow origs (sel_of origs positions) =
        (sel_of origs positions).map fun x => x.1) ∧
      (2 < (sel_of origs positions).length →
        preserve_conversation_flow origs (sel_of origs positions) =
          flow_spec origs positions) ∧
      (∀ i ∈ positions, i < origs.length →
        origs.getD i mdefault ∈ preserve_conversation_flow origs (sel_of origs positions)) := by
  have hids : ((sel_of origs positions).filterMap fun x =>
      if x.2.2 then none else some x.2.1) = positions := by
    unfold sel_of
    rw [List.filterMap_map]
    have : ((fun x : Msg × ℕ × Bool => if x.2.2 = true then none else some x.2.1) ∘
        fun i => (origs.getD i mdefault, i, false)) = fun i => some i := by
      funext i
      simp
    rw [this, List.filterMap_some]
  refine ⟨fun hle => ?_, fun hgt => ?_, fun i hi hilen => ?_⟩
  · unfold preserve_conversation_flow
    rw [if_pos hle]
  · unfold preserve_conversation_flow
    rw [if_neg (by omega), hids, flow_walk_eq origs positions 0]
    unfold flow_spec
    apply List.flatMap_congr
    intro j _
    simp
  · unfold preserve_conversation_flow
    by_cases hle : (sel_of origs positions).length ≤ 2
    · rw [if_pos hle]
      unfold sel_of
      rw [List.map_map]
      exact List.mem_map.mpr ⟨i, hi, rfl⟩
    · rw [if_neg hle, hids]
      exact flow_walk_mem origs positions 0 i hilen (by simpa using hi)

/-- C5, witness: a four-message conversation with the first three messages
selected; the pass applies, reproduces the claim's walk (appending the
truncated copy of the unselected assistant reply after the third, user,
message) and keeps every selected message. -/
theorem C5_flow_preservation_amended_witness :
    preserve_conversation_flow [msg_u, msg_u, msg_u, msg_a]
        (sel_of [msg_u, msg_u, msg_u, msg_a] [0, 1, 2]) =
        flow_spec [msg_u, msg_u, msg_u, msg_a] [0, 1, 2] ∧
      msg_u ∈ preserve_conversation_flow [msg_u, msg_u, msg_u, msg_a]
        (sel_of [msg_u, msg_u, msg_u, msg_a] [0, 1, 2]) := by
  constructor
  · exact (C5_flow_preservation_amended [msg_u, msg_u, msg_u, msg_a] [0, 1, 2]).2.1
      (by decide)
  · exact (C5_flow_preservation_amended [msg_u, msg_u, msg_u, msg_a] [0, 1, 2]).2.2
      0 (by decide) (by decide)

/-! ### Claim C1: unknown strategy names -/

/-- An empty conversation. -/
def conv_empty : Conversation :=
  { messages := [], total_tokens := 0, source_tool := "test" }

/-- C1, counterexample: supplying the unregistered strategy name `neural`
yields a result whose `strategy_used` is `neural` itself, not the configured
default `hybrid` — the engine stores the resolved *name* (line 602 uses
`strategy_name`), even though the optimizer that ran was the default. -/
theorem C1_strategy_used_echoes_unknown_name :
    (optimize_context conv_empty 100 (some "neural") true).strategy_used =
        "neural" ∧
      "neural" ∉ strategies.map (fun p => p.1) ∧
      default_strategy = "hybrid" ∧ "neural" ≠ "hybrid" := by
  refine ⟨rfl, ?_, rfl, by decide⟩
  simp [strategies]

/-- C1, amended: for every conversation and every nonempty strategy name not
registered in the engine's registry, `optimize_context` completes and runs
the configured default strategy's optimizer (hybrid), but the returned
result's `strategy_used` field equals the unknown name that was supplied,
not the default strategy's name. -/
theorem C1_unknown_strategy_amended (ctx : Conversation) (maxT : ℤ)
    (name : String) (pq : Bool) (hname : name ≠ "")
    (hreg : name ∉ strategies.map fun p => p.1) :
    (optimize_context ctx maxT (some name) pq).optimized_messages =
        hybrid_optimize ctx
          (if pq then min maxT (max 5000 ((total_estimate ctx.messages : ℤ) / 2))
            else maxT) ∧
      (optimize_context ctx maxT (some name) pq).strategy_used = name := by
  have hreg2 : name ≠ "statistical" ∧ name ≠ "hybrid" := by
    simp only [strategies, List.map_cons, List.map_nil, List.mem_cons,
      List.not_mem_nil, or_false] at hreg
    push_neg at hreg
    exact hreg
  have hlook : strategies.lookup name = none := by
    have b1 : (name == "statistical") = false := beq_eq_false_iff_ne.mpr hreg2.1
    have b2 : (name == "hybrid") = false := beq_eq_false_iff_ne.mpr hreg2.2
    simp [strategies, List.lookup, b1, b2]
  constructor
  · simp only [optimize_context, if_neg hname, hlook, Option.getD_none]
  · simp only [optimize_context, if_neg hname]

/-- C1, witness: the amended theorem applied to the empty conversation with
the unregistered name `neural`. -/
theorem C1_unknown_strategy_amended_witness :
    (optimize_context conv_empty 100 (some "neural") false).optimized_messages =
        hybrid_optimize conv_empty 100 ∧
      (optimize_context conv_empty 100 (some "neural") false).strategy_used =
        "neural" := by
  have h := C1_unknown_strategy_amended conv_empty 100 "neural" false
    (by decide) (by simp [strategies])
  simpa using h

/-! ### Step lemmas for the greedy selection walk -/

theorem select_aux_take (m : Msg) (s : ℝ) (i : ℕ) (rest : List (Msg × ℝ × ℕ))
    (total : ℕ) (b : ℤ) (hfit : (total : ℤ) + token_estimate m ≤ b) :
    select_aux ((m, s, i) :: rest) total b =
      (m, i, false) :: select_aux rest (total + token_estimate m) b := by
  rw [select_aux]
  simp only [if_pos hfit]

theorem select_aux_fill (m : Msg) (s : ℝ) (i : ℕ) (rest : List (Msg × ℝ × ℕ))
    (total : ℕ) (b : ℤ) (hfit : ¬ ((total : ℤ) + token_estimate m ≤ b))
    (hcond : 5 * (total : ℤ) < 4 * b ∧ 50 < b - (total : ℤ)) :
    select_aux ((m, s, i) :: rest) total b =
      [(truncated_fill m s (b - total), i, true)] := by
  rw [select_aux]
  simp only [if_neg hfit, if_pos hcond]

theorem select_aux_skip (m : Msg) (s : ℝ) (i : ℕ) (rest : List (Msg × ℝ × ℕ))
    (total : ℕ) (b : ℤ) (hfit : ¬ ((total : ℤ) + token_estimate m ≤ b))
    (hcond : ¬ (5 * (total : ℤ) < 4 * b ∧ 50 < b - (total : ℤ))) :
    select_aux ((m, s, i) :: rest) total b = select_aux rest total b := by
  rw [select_aux]
  simp only [if_neg hfit, if_neg hcond]

/-! ### Claim C2: the 20000-character single-message scenario -/

/-- The single 20000-character (5000 estimated tokens) message of the
scenario. -/
def msgB : Msg :=
  { role := "user", content := List.replicate 20000 'a', timestamp := none,
    tokens := none, relevance_score := none, message_type := none }

/-- The scenario conversation. -/
def convB : Conversation :=
  { messages := [msgB], total_tokens := 5000, source_tool := "test" }

theorem calc_relevance_singleton (m : Msg) : calculate_relevance [m] = [0] := by
  unfold calculate_relevance
  rw [if_neg (by simp)]
  rw [show List.range ([m] : List Msg).length = [0] from rfl]
  simp

theorem compute_scores_singleton (m : Msg) (h : m.timestamp = none) :
    compute_scores [m] = [0] := by
  unfold compute_scores
  rw [calc_relevance_singleton]
  have hdecay : apply_time_decay [m] [(0 : ℝ)] = [0] := by
    unfold apply_time_decay
    have hanchor : find_most_recent [m] = none := by
      simp [find_most_recent, h, Option.orElse]
    rw [if_neg (by simp), hanchor]
    simp [pos_decay_aux]
  rw [hdecay]
  unfold apply_type_priority
  simp

theorem token_estimate_msgB : token_estimate msgB = 5000 := by
  rw [token_estimate, show msgB.content = List.replicate 20000 'a' from rfl,
    List.length_replicate]

/-- The truncated fill produced for the scenario message under budget 100:
400 content characters plus the 15-character marker. -/
theorem select_msgB :
    select_optimal_subset [msgB] [(0 : ℝ)] 100 =
      [(truncated_fill msgB 0 100, 0, true)] := by
  unfold select_optimal_subset
  rw [show data_aux [msgB] [(0 : ℝ)] 0 = [(msgB, 0, 0)] from rfl,
    show sortD (fun x : Msg × ℝ × ℕ => x.2.1) [(msgB, 0, 0)] = [(msgB, 0, 0)]
      from rfl,
    select_aux_fill msgB 0 0 [] 0 100
      (by rw [token_estimate_msgB]; norm_num) (by norm_num)]
  rfl

theorem token_estimate_fillB : token_estimate (truncated_fill msgB 0 100) = 103 := by
  rw [token_estimate,
    show (truncated_fill msgB 0 100).content =
      (List.replicate 20000 'a').take (((100 : ℤ) - 0) * 4).toNat ++ trunc_marker
      from rfl,
    List.length_append, List.length_take, List.length_replicate]
  decide

set_option maxRecDepth 8000 in
theorem contains_code_fillB :
    contains_code (truncated_fill msgB 0 100).content = false := by
  decide

theorem hybrid_msgB : hybrid_optimize convB 100 = [] := by
  simp only [hybrid_optimize]
  rw [show convB.messages = [msgB] from rfl, compute_scores_singleton msgB rfl,
    select_msgB]
  rw [show preserve_conversation_flow [msgB] [(truncated_fill msgB 0 100, 0, true)] =
    [truncated_fill msgB 0 100] from rfl]
  rw [show enhance_code_context [truncated_fill msgB 0 100] =
      [truncated_fill msgB 0 100] by
    unfold enhance_code_context
    simp [contains_code_fillB]]
  simp only [final_token_fitting]
  rw [if_neg (by
    rw [show total_estimate [truncated_fill msgB 0 100] =
        token_estimate (truncated_fill msgB 0 100) by simp [total_estimate]]
    rw [token_estimate_fillB]
    norm_num)]
  rw [show sortD (fun p : Msg × ℝ => p.2)
      ([truncated_fill msgB 0 100].map fun m => (m, rel_or_zero m)) =
      [(truncated_fill msgB 0 100, rel_or_zero (truncated_fill msgB 0 100))]
      from rfl]
  rw [show fit_greedy
      [(truncated_fill msgB 0 100, rel_or_zero (truncated_fill msgB 0 100))] 0 100 =
      [] by
    rw [fit_greedy]
    rw [if_neg (by rw [token_estimate_fillB]; norm_num)]
    rfl]
  rfl

theorem total_estimate_msgB : total_estimate [msgB] = 5000 := by
  simp [total_estimate, token_estimate_msgB]

theorem engine_msgB_messages :
    (optimize_context convB 100 none true).optimized_messages = [] := by
  simp only [optimize_context]
  rw [show (strategies.lookup default_strategy).getD hybrid_optimize =
    hybrid_optimize from rfl]
  rw [show convB.messages = [msgB] from rfl, total_estimate_msgB]
  norm_num [hybrid_msgB]

theorem total_estimate_nil : total_estimate [] = 0 := rfl

theorem engine_msgB_tokens :
    (optimize_context convB 100 none true).optimized_tokens = 0 := by
  simp only [optimize_context]
  rw [show (strategies.lookup default_strategy).getD hybrid_optimize =
    hybrid_optimize from rfl]
  rw [show convB.messages = [msgB] from rfl, total_estimate_msgB]
  norm_num [hybrid_msgB, total_estimate_nil]

theorem engine_msgB_reduction :
    (optimize_context convB 100 none true).reduction_percentage = 100 := by
  simp only [optimize_context]
  rw [show (strategies.lookup default_strategy).getD hybrid_optimize =
    hybrid_optimize from rfl]
  rw [show convB.messages = [msgB] from rfl, total_estimate_msgB]
  norm_num [hybrid_msgB, total_estimate_nil]

/-- C2, counterexample: optimizing the single 20000-character message with
`max_tokens = 100` under the default (hybrid) strategy returns *zero*
messages, `optimized_tokens = 0` and a reduction of 100 percent — not the
one truncated message of roughly 100 tokens and roughly 98 percent
reduction the claim demands. -/
theorem C2_scenario_b_result_empty :
    (optimize_context convB 100 none true).optimized_messages.length = 0 ∧
      (optimize_context convB 100 none true).optimized_tokens = 0 ∧
      (optimize_context convB 100 none true).reduction_percentage = 100 := by
  refine ⟨?_, engine_msgB_tokens, engine_msgB_reduction⟩
  rw [engine_msgB_messages]
  rfl

/-- C2, amended: for the single 20000-character message under
`max_tokens = 100`, the statistical selection phase does produce exactly one
truncated message — of 103 estimated tokens, the remaining budget of 100
plus the 3-token marker overhead — but the hybrid (default) strategy's final
token fitting drops it again because 103 exceeds the budget of 100, so the
returned result has no messages, `optimized_tokens = 0`, and
`reduction_percentage = 100`. -/
theorem C2_scenario_b_amended :
    statistical_optimize convB 100 = [truncated_fill msgB 0 100] ∧
      total_estimate [truncated_fill msgB 0 100] = 103 ∧
      (optimize_context convB 100 none true).optimized_messages = [] ∧
      (optimize_context convB 100 none true).optimized_tokens = 0 ∧
      (optimize_context convB 100 none true).reduction_percentage = 100 := by
  refine ⟨?_, ?_, engine_msgB_messages, engine_msgB_tokens, engine_msgB_reduction⟩
  · unfold statistical_optimize
    rw [show convB.messages = [msgB] from rfl, compute_scores_singleton msgB rfl,
      select_msgB]
    rfl
  · simp [total_estimate, token_estimate_fillB]

/-! ### Claim C8: chronological subsequence with derived substitutions -/

/-- Content `c` is a derived (truncated or condensed) form of `c0`: a
selector truncation (a prefix plus the `... (truncated)` marker), a
flow-preservation truncation (500 characters plus an ellipsis), or the code
condensation of `c0`. -/
def derived_content (c c0 : List Char) : Bool :=
  ((List.range (c0.length + 1)).any fun a => c == c0.take a ++ trunc_marker) ||
    (c == c0.take 500 ++ "...".toList) ||
    (c == condense_code_content c0)

/-- Message `m` is the original message `m0` or one of the pipeline's
derived (truncated/condensed) substitutes for it: same role and timestamp,
content unchanged or derived. -/
def derived_from (m m0 : Msg) : Bool :=
  (m.role == m0.role) && (m.timestamp == m0.timestamp) &&
    ((m.content == m0.content) || derived_content m.content m0.content)

/-- `Embeds res origs`: `res` is a chronologically ordered subsequence of
`origs` by original position in which each entry is the original message at
its position or a derived substitute for it (at most one entry per
position). -/
inductive Embeds : List Msg → List Msg → Prop
  | nil (l : List Msg) : Embeds [] l
  | cons {x y : Msg} {xs ys : List Msg} :
      derived_from x y = true → Embeds xs ys → Embeds (x :: xs) (y :: ys)
  | skip {xs : List Msg} {y : Msg} {ys : List Msg} :
      Embeds xs ys → Embeds xs (y :: ys)

theorem embeds_cons_iff (x : Msg) (xs : List Msg) (y : Msg) (ys : List Msg) :
    Embeds (x :: xs) (y :: ys) ↔
      (derived_from x y = true ∧ Embeds xs ys) ∨ Embeds (x :: xs) ys := by
  constructor
  · intro h
    cases h with
    | cons h1 h2 => exact Or.inl ⟨h1, h2⟩
    | skip h => exact Or.inr h
  · rintro (⟨h1, h2⟩ | h)
    · exact Embeds.cons h1 h2
    · exact Embeds.skip h

/-- Decision procedure for `Embeds`, structurally recursive on the original
list. -/
def embeds_dec : (ys : List Msg) → (xs : List Msg) → Decidable (Embeds xs ys)
  | _, [] => isTrue (Embeds.nil _)
  | [], _ :: _ => isFalse fun h => nomatch h
  | y :: ys, x :: xs =>
    match embeds_dec ys (x :: xs) with
    | isTrue h => isTrue (Embeds.skip h)
    | isFalse h2 =>
      if hd : derived_from x y = true then
        match embeds_dec ys xs with
        | isTrue h => isTrue (Embeds.cons hd h)
        | isFalse h1 => isFalse fun h => by
            cases h with
            | cons ha hb => exact h1 hb
            | skip ha => exact h2 ha
      else
        isFalse fun h => by
          cases h with
          | cons ha hb => exact hd ha
          | skip ha => exact h2 ha

instance (xs ys : List Msg) : Decidable (Embeds xs ys) := embeds_dec ys xs

theorem derived_from_self (m : Msg) : derived_from m m = true := by
  simp [derived_from]

theorem derived_from_fill (m : Msg) (s : ℝ) (avail : ℤ) :
    derived_from (truncated_fill m s avail) m = true := by
  have hc : derived_content (truncated_fill m s avail).content m.content = true := by
    unfold derived_content truncated_fill
    simp only [Bool.or_eq_true, List.any_eq_true, beq_iff_eq]
    refine Or.inl (Or.inl ⟨min (avail * 4).toNat m.content.length,
      List.mem_range.mpr (by omega), ?_⟩)
    congr 1
    rcases le_or_lt (avail * 4).toNat m.content.length with h | h
    · rw [min_eq_left h]
    · rw [min_eq_right h.le, List.take_of_length_le h.le,
        List.take_of_length_le le_rfl]
  unfold derived_from
  rw [hc]
  simp [truncated_fill]

theorem data_aux_mem (msgs : List Msg) :
    ∀ (scores : List ℝ) (k : ℕ) (m : Msg) (s : ℝ) (i : ℕ),
      (m, s, i) ∈ data_aux msgs scores k →
        ∃ j, i = k + j ∧ j < msgs.length ∧ msgs.getD j mdefault = m := by
  induction msgs with
  | nil =>
    intro scores k m s i h
    rw [show data_aux [] scores k = [] from by cases scores <;> rfl] at h
    exact absurd h (List.not_mem_nil _)
  | cons m0 ms ih =>
    intro scores k m s i h
    cases scores with
    | nil => exact absurd h (List.not_mem_nil _)
    | cons s0 ss =>
      rw [data_aux] at h
      rcases List.mem_cons.mp h with h | h
      · refine ⟨0, ?_, by simp, ?_⟩
        · have : i = k := congrArg (fun p => p.2.2) h
          omega
        · have : m0 = m := (congrArg (fun p => p.1) h).symm
          simpa using this
      · obtain ⟨j, hj1, hj2, hj3⟩ := ih ss (k + 1) m s i h
        exact ⟨j + 1, by omega, by simpa using hj2, by simpa using hj3⟩

theorem select_aux_mem :
    ∀ (l : List (Msg × ℝ × ℕ)) (total : ℕ) (b : ℤ)
      (x : Msg × ℕ × Bool), x ∈ select_aux l total b →
      ∃ m s i, (m, s, i) ∈ l ∧
        (x = (m, i, false) ∨ ∃ avail, x = (truncated_fill m s avail, i, true)) := by
  intro l
  induction l with
  | nil => intro total b x h; exact absurd h (List.not_mem_nil _)
  | cons p rest ih =>
    obtain ⟨m, s, i⟩ := p
    intro total b x h
    by_cases hfit : (total : ℤ) + token_estimate m ≤ b
    · rw [select_aux_take m s i rest total b hfit] at h
      rcases List.mem_cons.mp h with h | h
      · exact ⟨m, s, i, List.mem_cons_self _ _, Or.inl h⟩
      · obtain ⟨m', s', i', hmem, hform⟩ := ih (total + token_estimate m) b x h
        exact ⟨m', s', i', List.mem_cons_of_mem _ hmem, hform⟩
    · by_cases hcond : 5 * (total : ℤ) < 4 * b ∧ 50 < b - (total : ℤ)
      · rw [select_aux_fill m s i rest total b hfit hcond] at h
        rcases List.mem_cons.mp h with h | h
        · exact ⟨m, s, i, List.mem_cons_self _ _, Or.inr ⟨b - total, h⟩⟩
        · exact absurd h (List.not_mem_nil _)
      · rw [select_aux_skip m s i rest total b hfit hcond] at h
        obtain ⟨m', s', i', hmem, hform⟩ := ih total b x h
        exact ⟨m', s', i', List.mem_cons_of_mem _ hmem, hform⟩

theorem select_aux_idx_sublist :
    ∀ (l : List (Msg × ℝ × ℕ)) (total : ℕ) (b : ℤ),
      List.Sublist ((select_aux l total b).map fun x => x.2.1)
        (l.map fun x => x.2.2) := by
  intro l
  induction l with
  | nil => intro total b; simp [select_aux]
  | cons p rest ih =>
    obtain ⟨m, s, i⟩ := p
    intro total b
    by_cases hfit : (total : ℤ) + token_estimate m ≤ b
    · rw [select_aux_take m s i rest total b hfit]
      simpa using (ih (total + token_estimate m) b).cons₂ i
    · by_cases hcond : 5 * (total : ℤ) < 4 * b ∧ 50 < b - (total : ℤ)
      · rw [select_aux_fill m s i rest total b hfit hcond]
        simp
      · rw [select_aux_skip m s i rest total b hfit hcond]
        exact (ih total b).cons i

theorem data_aux_idx_ge (msgs : List Msg) :
    ∀ (scores : List ℝ) (k : ℕ) (x : Msg × ℝ × ℕ),
      x ∈ data_aux msgs scores k → k ≤ x.2.2 := by
  induction msgs with
  | nil =>
    intro scores k x h
    rw [show data_aux [] scores k = [] from by cases scores <;> rfl] at h
    exact absurd h (List.not_mem_nil _)
  | cons m0 ms ih =>
    intro scores k x h
    cases scores with
    | nil => exact absurd h (List.not_mem_nil _)
    | cons s0 ss =>
      rw [data_aux] at h
      rcases List.mem_cons.mp h with h | h
      · subst h; exact le_rfl
      · exact le_trans (Nat.le_succ k) (ih ss (k + 1) x h)

theorem data_aux_idx_pairwise (msgs : List Msg) :
    ∀ (scores : List ℝ) (k : ℕ),
      (data_aux msgs scores k).Pairwise fun a b => a.2.2 < b.2.2 := by
  induction msgs with
  | nil =>
    intro scores k
    rw [show data_aux [] scores k = [] from by cases scores <;> rfl]
    exact List.Pairwise.nil
  | cons m0 ms ih =>
    intro scores k
    cases scores with
    | nil => exact List.Pairwise.nil
    | cons s0 ss =>
      rw [data_aux]
      refine List.Pairwise.cons ?_ (ih ss (k + 1))
      intro x hx
      have := data_aux_idx_ge ms ss (k + 1) x hx
      simpa using lt_of_lt_of_le (Nat.lt_succ_self k) this

theorem insertA_sorted {α : Type} (key : α → ℕ) (x : α) (l : List α)
    (h : l.Pairwise fun a b => key a ≤ key b) :
    (insertA key x l).Pairwise fun a b => key a ≤ key b := by
  induction l with
  | nil => simp [insertA]
  | cons y ys ih =>
    rcases List.pairwise_cons.mp h with ⟨hy, hys⟩
    rw [insertA]
    by_cases hlt : key y < key x
    · rw [if_pos hlt]
      refine List.pairwise_cons.mpr ⟨?_, ih hys⟩
      intro z hz
      rcases List.mem_cons.mp ((insertA_perm key x ys).mem_iff.mp hz) with hz | hz
      · subst hz; exact le_of_lt hlt
      · exact hy z hz
    · rw [if_neg hlt]
      refine List.pairwise_cons.mpr ⟨?_, h⟩
      intro z hz
      rcases List.mem_cons.mp hz with hz | hz
      · subst hz; exact le_of_not_lt hlt
      · exact le_trans (le_of_not_lt hlt) (hy z hz)

theorem sortA_sorted {α : Type} (key : α → ℕ) (l : List α) :
    (sortA key l).Pairwise fun a b => key a ≤ key b := by
  induction l with
  | nil => exact List.Pairwise.nil
  | cons x xs ih => exact insertA_sorted key x (sortA key xs) ih

theorem pairwise_lt_of_sorted_nodup {α : Type} (key : α → ℕ) (l : List α)
    (hs : l.Pairwise fun a b => key a ≤ key b)
    (hn : (l.map key).Nodup) :
    l.Pairwise fun a b => key a < key b := by
  have hne : l.Pairwise fun a b => key a ≠ key b := List.pairwise_map.mp hn
  exact (hs.and hne).imp fun h => lt_of_le_of_ne h.1 h.2

theorem drop_eq_getD_cons {α : Type} (d : α) :
    ∀ (l : List α) (k : ℕ), k < l.length →
      l.drop k = l.getD k d :: l.drop (k + 1) := by
  intro l
  induction l with
  | nil => intro k h; simp at h
  | cons a l ih =>
    intro k h
    cases k with
    | zero => simp
    | succ k =>
      have hk : k < l.length := by simpa using h
      simpa using ih k hk

theorem embeds_of_indexed (origs : List Msg) (n : ℕ) :
    ∀ (k : ℕ), origs.length ≤ k + n →
      ∀ pairs : List (Msg × ℕ),
        (pairs.map fun p => p.2).Pairwise (· < ·) →
        (∀ p ∈ pairs, k ≤ p.2 ∧ p.2 < origs.length ∧
          derived_from p.1 (origs.getD p.2 mdefault) = true) →
        Embeds (pairs.map fun p => p.1) (origs.drop k) := by
  induction n with
  | zero =>
    intro k hk pairs _ hcond
    cases pairs with
    | nil => exact Embeds.nil _
    | cons p ps =>
      obtain ⟨h1, h2, _⟩ := hcond p (List.mem_cons_self _ _)
      omega
  | succ n ih =>
    intro k hk pairs hpw hcond
    cases pairs with
    | nil => exact Embeds.nil _
    | cons p ps =>
      obtain ⟨m, i⟩ := p
      obtain ⟨hki, hilen, hder⟩ := hcond (m, i) (List.mem_cons_self _ _)
      have hklen : k < origs.length := lt_of_le_of_lt hki hilen
      rw [drop_eq_getD_cons mdefault origs k hklen]
      rcases List.pairwise_cons.mp hpw with ⟨hhead, htail⟩
      by_cases hk' : i = k
      · subst hk'
        refine Embeds.cons hder (ih (i + 1) (by omega) ps htail ?_)
        intro q hq
        obtain ⟨q1, q2, q3⟩ := hcond q (List.mem_cons_of_mem _ hq)
        refine ⟨?_, q2, q3⟩
        have hlt : i < q.2 := by simpa using hhead q.2 (List.mem_map_of_mem _ hq)
        omega
      · have hik : k < i := lt_of_le_of_ne hki (Ne.symm hk')
        refine Embeds.skip (ih (k + 1) (by omega) ((m, i) :: ps) hpw ?_)
        intro q hq
        rcases List.mem_cons.mp hq with hq | hq
        · subst hq
          exact ⟨by omega, hilen, hder⟩
        · obtain ⟨q1, q2, q3⟩ := hcond q (List.mem_cons_of_mem _ hq)
          refine ⟨?_, q2, q3⟩
          have hlt : i < q.2 := by simpa using hhead q.2 (List.mem_map_of_mem _ hq)
          omega

/-- C8: amended. For every conversation and budget, the STATISTICAL
optimizer's output is a chronologically ordered (by original position)
subsequence of the original messages in which each entry is the original
message at its position or a single derived truncated substitute for it.
(The hybrid/default path violates this; see the counterexample.) -/
theorem C8_statistical_chronological_subsequence_amended
    (ctx : Conversation) (maxT : ℤ) :
    Embeds (statistical_optimize ctx maxT) ctx.messages := by
  classical
  set msgs := ctx.messages with hmsgs
  set scores := compute_scores msgs with hscores
  set data := data_aux msgs scores 0 with hdata
  set sel := select_aux (sortD (fun x => x.2.1) data) 0 maxT with hsel
  set tri := sortA (fun x : Msg × ℕ × Bool => x.2.1) sel with htri
  have hout : statistical_optimize ctx maxT = tri.map fun x => x.1 := rfl
  set pairs : List (Msg × ℕ) := tri.map fun x => (x.1, x.2.1) with hpairs
  have hfst : pairs.map (fun p => p.1) = tri.map fun x => x.1 := by
    rw [hpairs, List.map_map]; rfl
  have hsnd : pairs.map (fun p => p.2) = tri.map fun x => x.2.1 := by
    rw [hpairs, List.map_map]; rfl
  -- nodup of the index list
  have hnd : (tri.map fun x => x.2.1).Nodup := by
    have h1 : (data.map fun x => x.2.2).Pairwise (· < ·) :=
      List.pairwise_map.mpr (data_aux_idx_pairwise msgs scores 0)
    have h2 : (data.map fun x => x.2.2).Nodup := h1.imp ne_of_lt
    have h3 : ((sortD (fun x : Msg × ℝ × ℕ => x.2.1) data).map fun x => x.2.2).Nodup :=
      (((sortD_perm _ data).map fun x => x.2.2).nodup_iff).mpr h2
    have h4 : (sel.map fun x => x.2.1).Nodup :=
      (select_aux_idx_sublist _ 0 maxT).nodup h3
    exact (((sortA_perm _ sel).map fun x => x.2.1).nodup_iff).mpr h4
  have hsorted : tri.Pairwise fun a b => a.2.1 ≤ b.2.1 := sortA_sorted _ sel
  have hlt : tri.Pairwise fun a b => a.2.1 < b.2.1 :=
    pairwise_lt_of_sorted_nodup (fun x => x.2.1) tri hsorted hnd
  have hpw : (pairs.map fun p => p.2).Pairwise (· < ·) := by
    rw [hsnd]
    exact List.pairwise_map.mpr hlt
  have hcond : ∀ p ∈ pairs, 0 ≤ p.2 ∧ p.2 < msgs.length ∧
      derived_from p.1 (msgs.getD p.2 mdefault) = true := by
    intro p hp
    rw [hpairs] at hp
    obtain ⟨x, hx, hxp⟩ := List.mem_map.mp hp
    have hx' : x ∈ sel := (sortA_perm _ sel).mem_iff.mp hx
    obtain ⟨m, s, i, hmem, hform⟩ := select_aux_mem _ 0 maxT x hx'
    have hmem' : (m, s, i) ∈ data := (sortD_perm _ data).mem_iff.mp hmem
    obtain ⟨j, hj1, hj2, hj3⟩ := data_aux_mem msgs scores 0 m s i hmem'
    have hij : i = j := by omega
    subst hij
    rcases hform with hform | ⟨avail, hform⟩
    · subst hform
      rw [← hxp]
      exact ⟨Nat.zero_le _, hj2, by rw [hj3]; exact derived_from_self m⟩
    · subst hform
      rw [← hxp]
      exact ⟨Nat.zero_le _, hj2, by rw [hj3]; exact derived_from_fill m s avail⟩
  have hmain := embeds_of_indexed msgs msgs.length 0 (by omega) pairs hpw hcond
  rw [List.drop_zero, hfst, ← hout] at hmain
  exact hmain

theorem pos_decay_aux_length (n : ℕ) :
    ∀ (l : List ℝ) (i : ℕ), (pos_decay_aux n l i).length = l.length := by
  intro l
  induction l with
  | nil => intro i; rfl
  | cons s rest ih => intro i; rw [pos_decay_aux]; simp [ih]

theorem decay_aux_length (anchor : ℚ) (n : ℕ) :
    ∀ (l : List (Msg × ℝ)) (i : ℕ), (decay_aux anchor n l i).length = l.length := by
  intro l
  induction l with
  | nil => intro i; rfl
  | cons p rest ih =>
    obtain ⟨m, s⟩ := p
    intro i; rw [decay_aux]; simp [ih]

theorem calculate_relevance_length (msgs : List Msg) :
    (calculate_relevance msgs).length = msgs.length := by
  cases msgs with
  | nil => rfl
  | cons m ms =>
    unfold calculate_relevance
    rw [if_neg (by simp)]
    simp

theorem apply_time_decay_length (msgs : List Msg) (scores : List ℝ)
    (h : scores.length = msgs.length) :
    (apply_time_decay msgs scores).length = msgs.length := by
  unfold apply_time_decay
  by_cases he : msgs.isEmpty
  · rw [if_pos he]; exact h
  · rw [if_neg he]
    cases find_most_recent msgs
    · rw [pos_decay_aux_length, h]
    · rw [decay_aux_length, List.length_zip, h, min_self]

theorem apply_type_priority_length (msgs : List Msg) (scores : List ℝ) :
    (apply_type_priority msgs scores).length = min msgs.length scores.length := by
  simp [apply_type_priority]

theorem compute_scores_length (msgs : List Msg) :
    (compute_scores msgs).length = msgs.length := by
  unfold compute_scores
  rw [apply_type_priority_length,
    apply_time_decay_length _ _ (calculate_relevance_length msgs), min_self]

/-- Integer token estimate of a scored triple. -/
def tokZ (x : Msg × ℝ × ℕ) : ℤ := (token_estimate x.1 : ℤ)

/-- The triples whose message individually fits the budget. -/
def smalls (b : ℤ) (l : List (Msg × ℝ × ℕ)) : List (Msg × ℝ × ℕ) :=
  l.filter fun x => decide (tokZ x ≤ b)

/-- Total integer token estimate of a list of scored triples. -/
def sumTok (l : List (Msg × ℝ × ℕ)) : ℤ := (l.map tokZ).sum

theorem sumTok_nonneg (l : List (Msg × ℝ × ℕ)) : 0 ≤ sumTok l := by
  apply List.sum_nonneg
  intro x hx
  obtain ⟨y, _, rfl⟩ := List.mem_map.mp hx
  exact Int.natCast_nonneg _

/-- When the budget is at most 50 the truncation branch can never fire, and
if all the individually fitting messages fit together the greedy walk keeps
exactly them, in walk order. -/
theorem select_aux_small_budget (b : ℤ) (hb : b ≤ 50) :
    ∀ (l : List (Msg × ℝ × ℕ)) (total : ℕ),
      (total : ℤ) + sumTok (smalls b l) ≤ b →
      select_aux l total b = (smalls b l).map fun x => (x.1, x.2.2, false) := by
  intro l
  induction l with
  | nil => intro total _; rfl
  | cons p rest ih =>
    obtain ⟨m, s, i⟩ := p
    intro total H
    by_cases hsm : tokZ (m, s, i) ≤ b
    · have hsmalls : smalls b ((m, s, i) :: rest) = (m, s, i) :: smalls b rest := by
        simp only [smalls, List.filter_cons, decide_eq_true hsm]
        simp
      have hsum : sumTok (smalls b ((m, s, i) :: rest)) =
          tokZ (m, s, i) + sumTok (smalls b rest) := by
        rw [hsmalls, sumTok, List.map_cons, List.sum_cons]; rfl
      have htok : tokZ (m, s, i) = (token_estimate m : ℤ) := rfl
      have hnn := sumTok_nonneg (smalls b rest)
      rw [hsum, htok] at H
      have hfit : (total : ℤ) + token_estimate m ≤ b := by omega
      rw [select_aux_take m s i rest total b hfit, hsmalls, List.map_cons]
      congr 1
      apply ih (total + token_estimate m)
      push_cast
      omega
    · have hsmalls : smalls b ((m, s, i) :: rest) = smalls b rest := by
        simp only [smalls, List.filter_cons, decide_eq_false hsm]
        simp
      have htok : ¬ ((token_estimate m : ℤ) ≤ b) := hsm
      have hfit : ¬ ((total : ℤ) + token_estimate m ≤ b) := by omega
      have hcond : ¬ (5 * (total : ℤ) < 4 * b ∧ 50 < b - (total : ℤ)) := by
        rintro ⟨_, h2⟩; omega
      rw [select_aux_skip m s i rest total b hfit hcond, hsmalls]
      rw [hsmalls] at H
      exact ih total H

/-- Counterexample conversation for the hybrid path: a 4-character user
message appearing twice (value-equal, distinct positions). -/
def mW8 : Msg :=
  { role := "user", content := "aaaa".toList, timestamp := none,
    tokens := none, relevance_score := none, message_type := none }

/-- A distinct 4-character user message. -/
def mB8 : Msg :=
  { role := "user", content := "bbbb".toList, timestamp := none,
    tokens := none, relevance_score := none, message_type := none }

/-- A 24-character user message (6 estimated tokens). -/
def mE8 : Msg :=
  { role := "user", content := List.replicate 24 'c', timestamp := none,
    tokens := none, relevance_score := none, message_type := none }

/-- A 44-character assistant reply (11 estimated tokens): too large for the
budget, so it is dropped by selection and re-enters as a flow-preservation
truncated copy. -/
def mZ8 : Msg :=
  { role := "assistant", content := List.replicate 44 'z', timestamp := none,
    tokens := none, relevance_score := none, message_type := none }

/-- The original message list of the counterexample. -/
def origs8 : List Msg := [mW8, mB8, mW8, mE8, mZ8]

/-- The counterexample conversation. -/
def conv8 : Conversation :=
  { messages := origs8, total_tokens := 20, source_tool := "test" }

theorem tok_W8 : token_estimate mW8 = 1 := rfl

theorem tok_B8 : token_estimate mB8 = 1 := rfl

theorem tok_E8 : token_estimate mE8 = 6 := rfl

theorem tok_Z8 : token_estimate mZ8 = 11 := rfl

theorem dec_W8 (s : ℝ) (i : ℕ) : decide (tokZ (mW8, s, i) ≤ 10) = true := by
  norm_num [tokZ, tok_W8]

theorem dec_B8 (s : ℝ) (i : ℕ) : decide (tokZ (mB8, s, i) ≤ 10) = true := by
  norm_num [tokZ, tok_B8]

theorem dec_E8 (s : ℝ) (i : ℕ) : decide (tokZ (mE8, s, i) ≤ 10) = true := by
  norm_num [tokZ, tok_E8]

theorem dec_Z8 (s : ℝ) (i : ℕ) : decide (tokZ (mZ8, s, i) ≤ 10) = false := by
  norm_num [tokZ, tok_Z8]

/-- For ANY score vector, the statistical selector on `origs8` with budget
10 keeps exactly the four user messages, in chronological order: the four
fit together (1+1+1+6 = 9 ≤ 10), the assistant reply (11 tokens) never
fits, and the truncation branch needs a remaining budget above 50. -/
theorem sel8 (scores : List ℝ) (hlen : scores.length = 5) :
    select_optimal_subset origs8 scores 10 =
      [(mW8, 0, false), (mB8, 1, false), (mW8, 2, false), (mE8, 3, false)] := by
  classical
  rcases scores with _ | ⟨a, s1⟩
  · simp at hlen
  rcases s1 with _ | ⟨b, s2⟩
  · simp at hlen
  rcases s2 with _ | ⟨c, s3⟩
  · simp at hlen
  rcases s3 with _ | ⟨d, s4⟩
  · simp at hlen
  rcases s4 with _ | ⟨e, s5⟩
  · simp at hlen
  rcases s5 with _ | ⟨f, t⟩
  swap
  · simp at hlen
  rw [select_optimal_subset]
  have hdata : data_aux origs8 [a, b, c, d, e] 0 =
      [(mW8, a, 0), (mB8, b, 1), (mW8, c, 2), (mE8, d, 3), (mZ8, e, 4)] := rfl
  rw [hdata]
  have hperm : List.Perm
      (sortD (fun x : Msg × ℝ × ℕ => x.2.1)
        [(mW8, a, 0), (mB8, b, 1), (mW8, c, 2), (mE8, d, 3), (mZ8, e, 4)])
      [(mW8, a, 0), (mB8, b, 1), (mW8, c, 2), (mE8, d, 3), (mZ8, e, 4)] :=
    sortD_perm _ _
  have hsmalls_data :
      smalls 10 [(mW8, a, 0), (mB8, b, 1), (mW8, c, 2), (mE8, d, 3), (mZ8, e, 4)] =
        [(mW8, a, 0), (mB8, b, 1), (mW8, c, 2), (mE8, d, 3)] := by
    simp only [smalls, List.filter_cons, dec_W8, dec_B8, dec_E8, dec_Z8]
    simp
  have hsum_data :
      sumTok [(mW8, a, 0), (mB8, b, 1), (mW8, c, 2), (mE8, d, 3)] = 9 := by
    simp only [sumTok, List.map_cons, List.map_nil, List.sum_cons, List.sum_nil]
    norm_num [tokZ, tok_W8, tok_B8, tok_E8]
  have hH : ((0 : ℕ) : ℤ) +
      sumTok (smalls 10 (sortD (fun x : Msg × ℝ × ℕ => x.2.1)
        [(mW8, a, 0), (mB8, b, 1), (mW8, c, 2), (mE8, d, 3), (mZ8, e, 4)])) ≤ 10 := by
    have h1 := hperm.filter fun x => decide (tokZ x ≤ 10)
    have h2 := (h1.map tokZ).sum_eq
    have h3 : sumTok (smalls 10 (sortD (fun x : Msg × ℝ × ℕ => x.2.1)
        [(mW8, a, 0), (mB8, b, 1), (mW8, c, 2), (mE8, d, 3), (mZ8, e, 4)])) =
        sumTok (smalls 10
          [(mW8, a, 0), (mB8, b, 1), (mW8, c, 2), (mE8, d, 3), (mZ8, e, 4)]) := h2
    rw [h3, hsmalls_data, hsum_data]
    norm_num
  rw [select_aux_small_budget 10 (by norm_num) _ 0 hH]
  set X := (smalls 10 (sortD (fun x : Msg × ℝ × ℕ => x.2.1)
      [(mW8, a, 0), (mB8, b, 1), (mW8, c, 2), (mE8, d, 3), (mZ8, e, 4)])).map
    (fun x => (x.1, x.2.2, false)) with hXdef
  set target : List (Msg × ℕ × Bool) :=
    [(mW8, 0, false), (mB8, 1, false), (mW8, 2, false), (mE8, 3, false)] with htgtdef
  have hXperm : List.Perm X target := by
    have h1 : List.Perm X ((smalls 10
        [(mW8, a, 0), (mB8, b, 1), (mW8, c, 2), (mE8, d, 3), (mZ8, e, 4)]).map
          fun x => (x.1, x.2.2, false)) :=
      (hperm.filter _).map _
    rw [hsmalls_data] at h1
    exact h1
  have hperm2 : List.Perm (sortA (fun x : Msg × ℕ × Bool => x.2.1) X) target :=
    (sortA_perm _ X).trans hXperm
  have hnodup : ((sortA (fun x : Msg × ℕ × Bool => x.2.1) X).map
      fun x : Msg × ℕ × Bool => x.2.1).Nodup := by
    have hp : List.Perm
        ((sortA (fun x : Msg × ℕ × Bool => x.2.1) X).map fun x : Msg × ℕ × Bool => x.2.1)
        (target.map fun x : Msg × ℕ × Bool => x.2.1) := hperm2.map _
    rw [hp.nodup_iff]
    rw [show target.map (fun x : Msg × ℕ × Bool => x.2.1) = [0, 1, 2, 3] from rfl]
    decide
  have hlt := pairwise_lt_of_sorted_nodup (fun x : Msg × ℕ × Bool => x.2.1)
    (sortA (fun x : Msg × ℕ × Bool => x.2.1) X) (sortA_sorted _ X) hnodup
  have htgt : target.Pairwise fun x y : Msg × ℕ × Bool => x.2.1 < y.2.1 := by
    rw [htgtdef]
    refine List.Pairwise.cons ?_ (List.Pairwise.cons ?_
      (List.Pairwise.cons ?_ (List.Pairwise.cons ?_ List.Pairwise.nil))) <;>
      (intro z hz; fin_cases hz <;> norm_num)
  haveI : IsAntisymm (Msg × ℕ × Bool) (fun x y => x.2.1 < y.2.1) :=
    ⟨fun x y h1 h2 => absurd h1 (lt_asymm h2)⟩
  exact List.eq_of_perm_of_sorted hperm2 hlt htgt

/-- The working set after flow preservation in the counterexample: the four
selected user messages plus the truncated copy of the assistant reply
appended after the user message that precedes it. -/
def flowed8 : List Msg := [mW8, mB8, mW8, mE8, flow_trunc mZ8]

theorem flow8 :
    preserve_conversation_flow origs8
      [(mW8, 0, false), (mB8, 1, false), (mW8, 2, false), (mE8, 3, false)] =
      flowed8 := rfl

theorem cc_W8 : contains_code mW8.content = false := by decide

theorem cc_B8 : contains_code mB8.content = false := by decide

theorem cc_E8 : contains_code mE8.content = false := by decide

theorem cc_D8 : contains_code (flow_trunc mZ8).content = false := by decide

theorem enhance8 : enhance_code_context flowed8 = flowed8 := by
  simp [enhance_code_context, flowed8, cc_W8, cc_B8, cc_E8, cc_D8]

theorem tok_D8 : token_estimate (flow_trunc mZ8) = 11 := rfl

theorem tot_flowed8 : total_estimate flowed8 = 20 := rfl

theorem tot_origs8 : total_estimate origs8 = 20 := rfl

theorem map_rel8 : flowed8.map (fun m => (m, rel_or_zero m)) =
    [(mW8, (0 : ℝ)), (mB8, 0), (mW8, 0), (mE8, 0), (flow_trunc mZ8, 0.5)] := rfl

theorem sortD8 :
    sortD (fun p : Msg × ℝ => p.2)
      [(mW8, (0 : ℝ)), (mB8, 0), (mW8, 0), (mE8, 0), (flow_trunc mZ8, 0.5)] =
      [(flow_trunc mZ8, 0.5), (mW8, 0), (mB8, 0), (mW8, 0), (mE8, 0)] := by
  norm_num [sortD, insertD]

theorem fitg8 :
    fit_greedy [(flow_trunc mZ8, (0.5 : ℝ)), (mW8, 0), (mB8, 0), (mW8, 0), (mE8, 0)]
      0 10 = [mW8, mB8, mW8, mE8] := by
  norm_num [fit_greedy, tok_D8, tok_W8, tok_B8, tok_E8]

open scoped Classical in
theorem key8_W :
    (if mW8 ∈ flowed8 then msg_index_of mW8 flowed8 else 0) = 0 := by
  classical
  rw [if_pos (by simp [flowed8])]
  rw [show flowed8 = mW8 :: [mB8, mW8, mE8, flow_trunc mZ8] from rfl,
    msg_index_of, if_pos rfl]

open scoped Classical in
theorem key8_B :
    (if mB8 ∈ flowed8 then msg_index_of mB8 flowed8 else 0) = 1 := by
  classical
  have hBW : ¬ (mB8 = mW8) := fun h => absurd (congrArg Msg.content h) (by decide)
  rw [if_pos (by simp [flowed8])]
  rw [show flowed8 = mW8 :: [mB8, mW8, mE8, flow_trunc mZ8] from rfl,
    msg_index_of, if_neg hBW, msg_index_of, if_pos rfl]

open scoped Classical in
theorem key8_E :
    (if mE8 ∈ flowed8 then msg_index_of mE8 flowed8 else 0) = 3 := by
  classical
  have hEW : ¬ (mE8 = mW8) := fun h => absurd (congrArg Msg.content h) (by decide)
  have hEB : ¬ (mE8 = mB8) := fun h => absurd (congrArg Msg.content h) (by decide)
  rw [if_pos (by simp [flowed8])]
  rw [show flowed8 = mW8 :: [mB8, mW8, mE8, flow_trunc mZ8] from rfl,
    msg_index_of, if_neg hEW, msg_index_of, if_neg hEB,
    msg_index_of, if_neg hEW, msg_index_of, if_pos rfl]

open scoped Classical in
theorem sortA8 :
    sortA (fun m => if m ∈ flowed8 then msg_index_of m flowed8 else 0)
      [mW8, mB8, mW8, mE8] = [mW8, mW8, mB8, mE8] := by
  classical
  have e1 : insertA (fun m => if m ∈ flowed8 then msg_index_of m flowed8 else 0)
      mE8 [] = [mE8] := rfl
  have e2 : insertA (fun m => if m ∈ flowed8 then msg_index_of m flowed8 else 0)
      mW8 [mE8] = [mW8, mE8] := by
    rw [insertA, if_neg (by simp only [key8_E, key8_W]; omega)]
  have e3 : insertA (fun m => if m ∈ flowed8 then msg_index_of m flowed8 else 0)
      mB8 [mW8, mE8] = [mW8, mB8, mE8] := by
    rw [insertA, if_pos (by simp only [key8_W, key8_B]; omega),
      insertA, if_neg (by simp only [key8_E, key8_B]; omega)]
  have e4 : insertA (fun m => if m ∈ flowed8 then msg_index_of m flowed8 else 0)
      mW8 [mW8, mB8, mE8] = [mW8, mW8, mB8, mE8] := by
    rw [insertA, if_neg (by simp only [key8_W]; omega)]
  rw [sortA, sortA, sortA, sortA, sortA, e1, e2, e3, e4]

theorem fit8 : final_token_fitting flowed8 10 = [mW8, mW8, mB8, mE8] := by
  simp only [final_token_fitting]
  rw [if_neg (by rw [tot_flowed8]; norm_num)]
  rw [map_rel8, sortD8, fitg8, sortA8]

theorem hybrid8 : hybrid_optimize conv8 10 = [mW8, mW8, mB8, mE8] := by
  simp only [hybrid_optimize]
  rw [show conv8.messages = origs8 from rfl]
  rw [sel8 (compute_scores origs8) (by rw [compute_scores_length]; rfl)]
  rw [flow8, enhance8]
  exact fit8

theorem engine8 :
    (optimize_context conv8 10 none true).optimized_messages =
      [mW8, mW8, mB8, mE8] := by
  simp only [optimize_context]
  rw [show (strategies.lookup default_strategy).getD hybrid_optimize =
    hybrid_optimize from rfl]
  rw [show conv8.messages = origs8 from rfl, tot_origs8]
  norm_num [hybrid8]

set_option maxRecDepth 20000 in
/-- C8, counterexample: on `conv8` (original messages `origs8`, where a
4-character user message appears twice) with budget 10 under the default
hybrid strategy, the engine returns `[mW8, mW8, mB8, mE8]` — the duplicated
user message appears twice in a row before the distinct one, so the output
is NOT a chronologically ordered subsequence of the originals with at most
one (possibly derived) message per original position: `_final_token_fitting`
re-sorts by `messages.index(msg)`, which maps both value-equal copies to the
first position. -/
theorem C8_hybrid_output_duplicates_position :
    (optimize_context conv8 10 none true).optimized_messages =
      [mW8, mW8, mB8, mE8] ∧
    ¬ Embeds (optimize_context conv8 10 none true).optimized_messages
      conv8.messages := by
  refine ⟨engine8, ?_⟩
  rw [engine8, show conv8.messages = origs8 from rfl]
  decide

end Ctm
